import Mathlib

/-!
Shallow embedding of the ordrebook limit order book (src/Orderbook.cpp).

The C++ book keeps three containers:
  * bids_  : std::map<Price, std::list<OrderPointer>, std::greater<Price>>
  * asks_  : std::map<Price, std::list<OrderPointer>, std::less<Price>>
  * orders_: std::unordered_map<OrderId, OrderEntry>
We model the two price maps as association lists kept in key order by the
insertion function (mirroring std::map's sorted representation), and the
registry as an association list.  Machine integers: prices are int32
(modelled as Int; the program only compares prices), quantities uint32 (as
Nat; the only operation that can wrap is the std::accumulate in
GetLevelInfos, which we model with an explicit reduction modulo 2^32;
Order::Fill subtracts only after checking quantity <= remaining, so it
cannot wrap).  Fallible operations return Option (none = a thrown
exception).  The matching loop of OrderBook::MatchOrders is a while(true)
loop; we model it with explicit fuel, so non-termination of the loop shows
up as the result being outOfFuel for every fuel.
-/

namespace Ordrebook

/-- Order lifetime policy, mirroring `enum class OrderType` (line 11). -/
inductive OrderType where
  | goodTillCancel
  | fillOrKill
deriving DecidableEq

/-- Side of the book, mirroring `enum class Side` (line 13). -/
inductive Side where
  | buy
  | sell
deriving DecidableEq

/- Spelled-out machine types: the source's Price (int32) is written as
plain Int below, its Quantity (uint32) and OrderId (uint64) as plain
Nat. -/

/-- Mirrors the `Order` class (lines 39-73). -/
structure Order where
  orderType : OrderType
  orderId : Nat
  side : Side
  price : Int
  initialQuantity : Nat
  remainingQuantity : Nat
deriving DecidableEq

/-- Mirrors the `Order` constructor (lines 41-44): the remaining quantity
starts out equal to the initial quantity. -/
def mkOrder (t : OrderType) (id : Nat) (sd : Side) (p : Int) (q : Nat) : Order :=
  ⟨t, id, sd, p, q, q⟩

/-- Mirrors `Order::isFilled` (line 52). -/
def Order.isFilled (o : Order) : Bool := o.remainingQuantity = 0

/-- Mirrors `Order::Fill` (lines 57-64): filling by more than the remaining
quantity throws std::logic_error (modelled as `none`); otherwise the
remaining quantity decreases by exactly the filled quantity. -/
def Order.Fill (o : Order) (q : Nat) : Option Order :=
  if q > o.remainingQuantity then none
  else some { o with remainingQuantity := o.remainingQuantity - q }

/-- Mirrors `struct TradeInfo` (lines 99-103). -/
structure TradeInfo where
  orderId : Nat
  price : Int
  quantity : Nat
deriving DecidableEq

/-- Mirrors the `Trade` class (lines 105-116): a bid leg and an ask leg. -/
structure Trade where
  bidTrade : TradeInfo
  askTrade : TradeInfo
deriving DecidableEq

/-- The trade record pushed at lines 183-185: each leg carries its own
order's id and price, and both legs carry the same matched quantity. -/
def mkTrade (bid ask : Order) (q : Nat) : Trade :=
  ⟨⟨bid.orderId, bid.price, q⟩, ⟨ask.orderId, ask.price, q⟩⟩

/-- Mirrors the `OrderModify` class (lines 78-97). -/
structure OrderModify where
  orderId : Nat
  side : Side
  price : Int
  quantity : Nat
deriving DecidableEq

/-- Mirrors `OrderModify::ToOrderPointer` (lines 87-90). -/
def OrderModify.ToOrderPointer (m : OrderModify) (t : OrderType) : Order :=
  mkOrder t m.orderId m.side m.price m.quantity

/-- What CancelOrder and the modify overload read through the registry's
OrderEntry: the order's side, price and type (the live quantities are
carried by the queue copies in this model). -/
structure RegEntry where
  side : Side
  price : Int
  orderType : OrderType
deriving DecidableEq

/-- The `orders_` registry (line 130), as an association list. -/
abbrev Registry := List (Nat × RegEntry)

def regContains (r : Registry) (id : Nat) : Bool := r.any (fun e => decide (e.1 = id))

def regFind (r : Registry) (id : Nat) : Option RegEntry :=
  (r.find? (fun e => decide (e.1 = id))).map (fun e => e.2)

def regErase (r : Registry) (id : Nat) : Registry := r.filter (fun e => decide (e.1 ≠ id))

def regInsert (r : Registry) (id : Nat) (e : RegEntry) : Registry := r ++ [(id, e)]

/-- One price level: the map key and its std::list of orders. -/
abbrev Level := Int × List Order

/-- Mirrors `map::at` (throws on a missing key, modelled by the caller
matching on `none`). -/
def findLevel (p : Int) (l : List Level) : Option (List Order) :=
  (l.find? (fun e => decide (e.1 = p))).map (fun e => e.2)

/-- Mirrors `map::erase(key)`. -/
def eraseLevel (p : Int) (l : List Level) : List Level :=
  l.filter (fun e => decide (e.1 ≠ p))

/-- Replaces the queue stored at key `p` (in-place mutation of a map value). -/
def setLevelAt (p : Int) (q : List Order) (l : List Level) : List Level :=
  l.map (fun e => if e.1 = p then (e.1, q) else e)

/-- Mirrors `orders.erase(iterator)` inside CancelOrder: the iterator points
at the registered order, which is the unique queue element with that id. -/
def eraseOrderById (id : Nat) (q : List Order) : List Order :=
  q.eraseP (fun o => decide (o.orderId = id))

/-- Mirrors `bids_[price].push_back(order)` (lines 242-244): std::map keeps
keys sorted descending (std::greater), operator[] default-creates a missing
level, and push_back appends the order at the tail of the level's queue. -/
def insertLevelDesc (o : Order) : List Level → List Level
  | [] => [(o.price, [o])]
  | (p, os) :: rest =>
    if o.price > p then (o.price, [o]) :: (p, os) :: rest
    else if o.price = p then (p, os ++ [o]) :: rest
    else (p, os) :: insertLevelDesc o rest

/-- Mirrors `asks_[price].push_back(order)` (lines 246-248): keys sorted
ascending (std::less). -/
def insertLevelAsc (o : Order) : List Level → List Level
  | [] => [(o.price, [o])]
  | (p, os) :: rest =>
    if o.price < p then (o.price, [o]) :: (p, os) :: rest
    else if o.price = p then (p, os ++ [o]) :: rest
    else (p, os) :: insertLevelAsc o rest

/-- Mirrors the `OrderBook` private state (lines 127-130). -/
structure OrderBook where
  bids : List Level
  asks : List Level
  orders : Registry
deriving DecidableEq

/-- A default-constructed OrderBook. -/
def emptyBook : OrderBook := ⟨[], [], []⟩

/-- Mirrors `OrderBook::CanMatch` (lines 132-146). -/
def OrderBook.CanMatch (s : OrderBook) (sd : Side) (p : Int) : Bool :=
  match sd with
  | .buy =>
    match s.asks with
    | [] => false
    | (bestAsk, _) :: _ => decide (p ≥ bestAsk)
  | .sell =>
    match s.bids with
    | [] => false
    | (bestBid, _) :: _ => decide (p ≤ bestBid)

/-- The insertion half of `OrderBook::AddOrder` (lines 239-250): push the
order at the tail of its side's queue at its price and register it. -/
def OrderBook.insertOrder (s : OrderBook) (o : Order) : OrderBook :=
  match o.side with
  | .buy => ⟨insertLevelDesc o s.bids, s.asks, regInsert s.orders o.orderId ⟨o.side, o.price, o.orderType⟩⟩
  | .sell => ⟨s.bids, insertLevelAsc o s.asks, regInsert s.orders o.orderId ⟨o.side, o.price, o.orderType⟩⟩

/-- Mirrors the inner while loop of `OrderBook::MatchOrders` (lines
160-186), acting on the front bid queue, the front ask queue and the
registry.  Each iteration fills both front orders by the min of their
remaining quantities, pops (and deregisters) whichever is filled, and
records the trade.  The result also carries the emitted trades in order.
The fuel argument is only a structural-recursion bound: every iteration
pops at least one order, so `bq.length + aq.length` fuel always suffices
(proved below); the fuel-exhaustion branch returning `none` is
semantically unreachable from the wrapper `FillLevel`.  `none` from the
Fill calls models the std::logic_error path of Order::Fill.  The branch
where neither front order is filled cannot happen (the fill quantity is
the min of the two remainings); the C++ loop would spin forever there, and
we fold that impossible branch into `none` as well. -/
def fillLevelF : Nat → List Order → List Order → Registry →
    Option (List Order × List Order × Registry × List Trade)
  | _, [], aq, reg => some ([], aq, reg, [])
  | _, b :: bs, [], reg => some (b :: bs, [], reg, [])
  | 0, _ :: _, _ :: _, _ => none
  | fuel + 1, b :: bs, a :: as, reg =>
    let q := min b.remainingQuantity a.remainingQuantity
    match b.Fill q, a.Fill q with
    | some b', some a' =>
      if b'.remainingQuantity = 0 then
        let reg1 := regErase reg b.orderId
        let aq' := if a'.remainingQuantity = 0 then as else a' :: as
        let reg2 := if a'.remainingQuantity = 0 then regErase reg1 a.orderId else reg1
        match fillLevelF fuel bs aq' reg2 with
        | some (bq2, aq2, reg3, ts) => some (bq2, aq2, reg3, mkTrade b a q :: ts)
        | none => none
      else if a'.remainingQuantity = 0 then
        match fillLevelF fuel (b' :: bs) as (regErase reg a.orderId) with
        | some (bq2, aq2, reg3, ts) => some (bq2, aq2, reg3, mkTrade b a q :: ts)
        | none => none
      else none
    | _, _ => none

/-- The inner while loop of `OrderBook::MatchOrders` with enough fuel for
all its iterations. -/
def FillLevel (bq aq : List Order) (reg : Registry) :
    Option (List Order × List Order × Registry × List Trade) :=
  fillLevelF (bq.length + aq.length) bq aq reg

/-- Result of a call that runs the matching loop.  `fillErr` is the
std::logic_error thrown by Order::Fill; `crash` is any other undefined or
throwing behaviour (calling front() on an empty std::list, map::at on a
missing key); `outOfFuel` means the loop ran longer than the given fuel. -/
inductive MatchResult where
  | ok : OrderBook → List Trade → MatchResult
  | fillErr : MatchResult
  | crash : MatchResult
  | outOfFuel : MatchResult
deriving DecidableEq

def MatchResult.isFillErr : MatchResult → Bool
  | .fillErr => true
  | _ => false

/-- Mirrors `OrderBook::CancelOrder` (lines 206-229).  An unknown id is a
silent no-op.  The sell branch removes the order from its ask level and
erases the level when it becomes empty.  The buy branch removes the order
from its bid level but, when the level becomes empty, erases the price from
the ask map (line 226) - the bid map keeps the empty level. -/
def OrderBook.CancelOrder (s : OrderBook) (id : Nat) : Option OrderBook :=
  match regFind s.orders id with
  | none => some s
  | some e =>
    match e.side with
    | .sell =>
      match findLevel e.price s.asks with
      | none => none
      | some q =>
        if eraseOrderById id q = [] then
          some ⟨s.bids, eraseLevel e.price s.asks, regErase s.orders id⟩
        else
          some ⟨s.bids, setLevelAt e.price (eraseOrderById id q) s.asks, regErase s.orders id⟩
    | .buy =>
      match findLevel e.price s.bids with
      | none => none
      | some q =>
        if eraseOrderById id q = [] then
          some ⟨setLevelAt e.price (eraseOrderById id q) s.bids, eraseLevel e.price s.asks,
            regErase s.orders id⟩
        else
          some ⟨setLevelAt e.price (eraseOrderById id q) s.bids, s.asks, regErase s.orders id⟩

/-- The ask half of the post-loop FillOrKill sweep (lines 195-201): if the
front order of the best ask level is FillOrKill, cancel it.  front() on an
empty level is undefined behaviour (`crash`). -/
def OrderBook.finishAsks (s : OrderBook) (acc : List Trade) : MatchResult :=
  match s.asks with
  | [] => .ok s acc
  | (_, []) :: _ => .crash
  | (_, o :: _) :: _ =>
    if o.orderType = .fillOrKill then
      match s.CancelOrder o.orderId with
      | some s1 => .ok s1 acc
      | none => .crash
    else .ok s acc

/-- The post-loop FillOrKill sweep of `OrderBook::MatchOrders` (lines
188-201): bids first, then asks on the resulting book. -/
def OrderBook.finishMatch (s : OrderBook) (acc : List Trade) : MatchResult :=
  match s.bids with
  | [] => s.finishAsks acc
  | (_, []) :: _ => .crash
  | (_, o :: _) :: _ =>
    if o.orderType = .fillOrKill then
      match s.CancelOrder o.orderId with
      | some s1 => s1.finishAsks acc
      | none => .crash
    else s.finishAsks acc

/-- Mirrors the outer while(true) loop of `OrderBook::MatchOrders` (lines
151-203).  Exits (into the FillOrKill sweep) when a side is empty or the
best prices no longer cross.  Otherwise it runs the inner loop on the two
front queues.  The level erasures at lines 178-181 sit inside the inner
loop, so when the inner loop runs zero iterations (a front queue is already
empty) nothing at all changes and the outer loop spins forever; with one or
more iterations, a front level is erased exactly when its queue ends up
empty. -/
def OrderBook.MatchLoop : Nat → OrderBook → List Trade → MatchResult
  | 0, _, _ => .outOfFuel
  | fuel + 1, s, acc =>
    match s.bids, s.asks with
    | [], _ => s.finishMatch acc
    | _ :: _, [] => s.finishMatch acc
    | (bp, bq) :: rb, (ap, aq) :: ra =>
      if bp < ap then s.finishMatch acc
      else
        match bq, aq with
        | [], _ => OrderBook.MatchLoop fuel s acc
        | _ :: _, [] => OrderBook.MatchLoop fuel s acc
        | _ :: _, _ :: _ =>
          match FillLevel bq aq s.orders with
          | none => .fillErr
          | some (bq', aq', reg', ts) =>
            OrderBook.MatchLoop fuel
              ⟨if bq' = [] then rb else (bp, bq') :: rb,
               if aq' = [] then ra else (ap, aq') :: ra, reg'⟩ (acc ++ ts)

/-- Mirrors `OrderBook::AddOrder` (lines 231-252): duplicate ids and
FillOrKill orders that cannot match are silent empty-result no-ops;
otherwise the order is inserted and the matching loop runs. -/
def OrderBook.AddOrder (fuel : Nat) (s : OrderBook) (o : Order) : MatchResult :=
  if regContains s.orders o.orderId = true then .ok s []
  else if o.orderType = .fillOrKill ∧ s.CanMatch o.side o.price = false then .ok s []
  else OrderBook.MatchLoop fuel (s.insertOrder o) []

/-- Mirrors `OrderBook::MatchOrders(OrderModify)` (lines 254-261): unknown
id is a silent empty-result no-op; otherwise cancel then re-add with the
existing order's type. -/
def OrderBook.MatchOrdersModify (fuel : Nat) (s : OrderBook) (m : OrderModify) : MatchResult :=
  match regFind s.orders m.orderId with
  | none => .ok s []
  | some e =>
    match s.CancelOrder m.orderId with
    | none => .crash
    | some s1 => s1.AddOrder fuel (m.ToOrderPointer e.orderType)

/-- Mirrors `OrderBook::Size` (line 263). -/
def OrderBook.Size (s : OrderBook) : Nat := s.orders.length

/-- Mirrors `struct LevelInfo` (lines 19-22). -/
structure LevelInfo where
  price : Int
  quantity : Nat
deriving DecidableEq

/-- Mirrors the std::accumulate in `CreateLevelInfos` (lines 270-278):
Quantity is uint32, so each running addition wraps modulo 2^32. -/
def levelQuantity (q : List Order) : Nat :=
  q.foldl (fun acc o => (acc + o.remainingQuantity) % 2 ^ 32) 0

/-- Mirrors `OrderBook::GetLevelInfos` (lines 265-286): one LevelInfo per
map entry, bids then asks, each in its map's key order. -/
def OrderBook.GetLevelInfos (s : OrderBook) : List LevelInfo × List LevelInfo :=
  (s.bids.map (fun e => ⟨e.1, levelQuantity e.2⟩),
   s.asks.map (fun e => ⟨e.1, levelQuantity e.2⟩))

/-- All orders resident in the bid queues, best level first, queue order
within a level. -/
def residentBids (s : OrderBook) : List Order := (s.bids.map (fun e => e.2)).flatten

/-- All orders resident in the ask queues. -/
def residentAsks (s : OrderBook) : List Order := (s.asks.map (fun e => e.2)).flatten

/-- Bid map keys strictly descending, as std::map<.., std::greater> keeps
them. -/
def levelsDesc (l : List Level) : Prop := l.Pairwise (fun x y => y.1 < x.1)

/-- Ask map keys strictly ascending, as std::map<.., std::less> keeps
them. -/
def levelsAsc (l : List Level) : Prop := l.Pairwise (fun x y => x.1 < y.1)

/-- Every order sits in the level keyed by its own price, on the right
side. -/
def levelOrdersOk (sd : Side) (l : List Level) : Prop :=
  ∀ e ∈ l, ∀ o ∈ e.2, o.price = e.1 ∧ o.side = sd

/-- Structural well-formedness the C++ containers guarantee by
construction: sorted unique keys, and orders filed under their own price on
their own side. -/
structure WF (s : OrderBook) : Prop where
  bidsDesc : levelsDesc s.bids
  asksAsc : levelsAsc s.asks
  bidsOk : levelOrdersOk .buy s.bids
  asksOk : levelOrdersOk .sell s.asks

/-- No resident buy order's price reaches any resident sell order's price:
no crossing interest is resident. -/
def crossFree (s : OrderBook) : Prop :=
  ∀ b ∈ residentBids s, ∀ a ∈ residentAsks s, b.price < a.price

/-- The two top-of-book map keys do not cross (or a side is empty). -/
def keysNoCross (s : OrderBook) : Prop :=
  match s.bids with
  | [] => True
  | (bp, _) :: _ =>
    match s.asks with
    | [] => True
    | (ap, _) :: _ => bp < ap

/-- The two orders agree on everything except that the first may be further
filled: matching only ever decreases remaining quantities in place. -/
def Order.sameStatic (o' o : Order) : Prop :=
  o'.orderType = o.orderType ∧ o'.orderId = o.orderId ∧ o'.side = o.side ∧
    o'.price = o.price ∧ o'.initialQuantity = o.initialQuantity ∧
    o'.remainingQuantity ≤ o.remainingQuantity

/-- Every order resident in `s'` is a (possibly further filled) copy of an
order resident in `s`, on the same side. -/
def staticSub (s' s : OrderBook) : Prop :=
  (∀ o' ∈ residentBids s', ∃ o ∈ residentBids s, o'.sameStatic o) ∧
  (∀ o' ∈ residentAsks s', ∃ o ∈ residentAsks s, o'.sameStatic o)

/-- The queue of orders resident at price `p` on side `sd` (empty when the
level is absent). -/
def queueAt (s : OrderBook) (sd : Side) (p : Int) : List Order :=
  (findLevel p (match sd with | .buy => s.bids | .sell => s.asks)).getD []

/-- Every resident order's remaining quantity is at most its initial
quantity. -/
def remLe (s : OrderBook) : Prop :=
  (∀ o ∈ residentBids s, o.remainingQuantity ≤ o.initialQuantity) ∧
  (∀ o ∈ residentAsks s, o.remainingQuantity ≤ o.initialQuantity)

/-- Every level present in an index has at least one resident order. -/
def levelsNonempty (s : OrderBook) : Prop :=
  (∀ e ∈ s.bids, e.2 ≠ []) ∧ (∀ e ∈ s.asks, e.2 ≠ [])

/-- No resident order is FillOrKill (an invariant of reachable books: an
unfilled FillOrKill order is cancelled by the post-loop sweep of the very
submission that added it). -/
def noResidentFOK (s : OrderBook) : Prop :=
  (∀ o ∈ residentBids s, o.orderType ≠ .fillOrKill) ∧
  (∀ o ∈ residentAsks s, o.orderType ≠ .fillOrKill)

/-- Every order of `l'` is a (possibly further filled) copy of an order of
`l`. -/
def queueStaticSub (l' l : List Order) : Prop := ∀ o' ∈ l', ∃ o ∈ l, o'.sameStatic o

/-- The ids of `l'` are a tail of the ids of `l`: consumption happened at
the front only. -/
def idsDropOf (l' l : List Order) : Prop :=
  ∃ k, l'.map (fun o => o.orderId) = (l.map (fun o => o.orderId)).drop k

/-- The registry `r'` only ever lost entries relative to `r`. -/
def regAntitone (r' r : Registry) : Prop :=
  ∀ id, regContains r' id = true → regContains r id = true

/-- The trade's two legs carry one common matched quantity, its bid leg the
id and price of some order of `bq`, and its ask leg those of some order of
`aq`. -/
def tradeSrc (bq aq : List Order) (t : Trade) : Prop :=
  t.bidTrade.quantity = t.askTrade.quantity ∧
  (∃ b ∈ bq, b.orderId = t.bidTrade.orderId ∧ b.price = t.bidTrade.price) ∧
  (∃ a ∈ aq, a.orderId = t.askTrade.orderId ∧ a.price = t.askTrade.price)

/-- The trade's legs carry one common quantity and the id and price of a
resident buy order and a resident sell order of `s`. -/
def tradeSrcBook (s : OrderBook) (t : Trade) : Prop :=
  tradeSrc (residentBids s) (residentAsks s) t

/-- Concrete run: a single resting buy order, as produced by
`AddOrder(GoodTillCancel, id 1, Buy, 100, 10)` on an empty book. -/
def oBuy1 : Order := mkOrder .goodTillCancel 1 .buy 100 10

def bookB1 : OrderBook :=
  ⟨[(100, [oBuy1])], [], [(1, ⟨.buy, 100, .goodTillCancel⟩)]⟩

/-- The book after `CancelOrder(1)` on `bookB1`: the buy branch of
CancelOrder erases the price from the ask map instead of the bid map, so
the bid index keeps a level with an empty queue. -/
def bugBook : OrderBook := ⟨[(100, [])], [], []⟩

/-- A sell order submitted after the cancel bug left the ghost level. -/
def oSell2 : Order := mkOrder .goodTillCancel 2 .sell 100 5

/-- The book obtained by inserting `oSell2` into `bugBook`: the ghost empty
bid level at 100 now faces a live ask level at 100, so the matching loop
spins forever. -/
def bugBook2 : OrderBook :=
  ⟨[(100, [])], [(100, [oSell2])], [(2, ⟨.sell, 100, .goodTillCancel⟩)]⟩

/-- Concrete run: a single resting sell order at 100. -/
def oSell1 : Order := mkOrder .goodTillCancel 1 .sell 100 5

def bookS1 : OrderBook :=
  ⟨[], [(100, [oSell1])], [(1, ⟨.sell, 100, .goodTillCancel⟩)]⟩

/-- An aggressive buy order at 105 crossing `bookS1`. -/
def oBuy2 : Order := mkOrder .goodTillCancel 2 .buy 105 5

/-- Two large buy orders whose remaining quantities sum to 2^32, resident
at the same level. -/
def oW1 : Order := mkOrder .goodTillCancel 1 .buy 100 (2 ^ 31)

def oW2 : Order := mkOrder .goodTillCancel 2 .buy 100 (2 ^ 31)

def bookW1 : OrderBook :=
  ⟨[(100, [oW1])], [], [(1, ⟨.buy, 100, .goodTillCancel⟩)]⟩

def bookW2 : OrderBook :=
  ⟨[(100, [oW1, oW2])], [],
   [(1, ⟨.buy, 100, .goodTillCancel⟩), (2, ⟨.buy, 100, .goodTillCancel⟩)]⟩

theorem Order.Fill_eq_some {o o' : Order} {q : Nat} :
    o.Fill q = some o' ↔
      q ≤ o.remainingQuantity ∧ o' = { o with remainingQuantity := o.remainingQuantity - q } := by
  unfold Order.Fill
  split
  case isTrue h =>
    exact iff_of_false (by simp) (by rintro ⟨h1, -⟩; omega)
  case isFalse h =>
    simp only [Option.some.injEq]
    constructor
    · intro hc
      exact ⟨by omega, hc.symm⟩
    · intro hc
      exact hc.2.symm

theorem Order.Fill_eq_none {o : Order} {q : Nat} :
    o.Fill q = none ↔ o.remainingQuantity < q := by
  unfold Order.Fill
  split
  case isTrue h => exact iff_of_true rfl (by omega)
  case isFalse h => exact iff_of_false (by simp) (by omega)

theorem regFind_eq_none {r : Registry} {id : Nat} (h : regContains r id = false) :
    regFind r id = none := by
  unfold regFind
  rw [List.find?_eq_none.mpr]
  · rfl
  · intro e he
    have := (List.any_eq_false.mp h) e he
    simpa using this

/-- C7: the business rejections are silent no-ops: a duplicate order id on
submit, a FillOrKill submission that cannot match at call time (in
particular whenever the opposite side is empty), and cancel or modify of an
unknown id each return an empty result, raise nothing, and leave the book
unchanged. -/
theorem claim_C7_silent_rejections :
    (∀ (fuel : Nat) (s : OrderBook) (o : Order), regContains s.orders o.orderId = true →
      OrderBook.AddOrder fuel s o = .ok s []) ∧
    (∀ (fuel : Nat) (s : OrderBook) (o : Order), o.orderType = OrderType.fillOrKill →
      s.CanMatch o.side o.price = false → OrderBook.AddOrder fuel s o = .ok s []) ∧
    (∀ (s : OrderBook) (p : Int), s.asks = [] → s.CanMatch .buy p = false) ∧
    (∀ (s : OrderBook) (p : Int), s.bids = [] → s.CanMatch .sell p = false) ∧
    (∀ (s : OrderBook) (id : Nat), regContains s.orders id = false →
      s.CancelOrder id = some s) ∧
    (∀ (fuel : Nat) (s : OrderBook) (m : OrderModify), regContains s.orders m.orderId = false →
      s.MatchOrdersModify fuel m = .ok s []) := by
  refine ⟨?_, ?_, ?_, ?_, ?_, ?_⟩
  · intro fuel s o h
    unfold OrderBook.AddOrder
    rw [if_pos h]
  · intro fuel s o h1 h2
    unfold OrderBook.AddOrder
    split
    · rfl
    · rw [if_pos ⟨h1, h2⟩]
  · intro s p h
    simp [OrderBook.CanMatch, h]
  · intro s p h
    simp [OrderBook.CanMatch, h]
  · intro s id h
    unfold OrderBook.CancelOrder
    rw [regFind_eq_none h]
  · intro fuel s m h
    unfold OrderBook.MatchOrdersModify
    rw [regFind_eq_none h]

theorem claim_C7_witness :
    OrderBook.AddOrder 3 bookB1 oBuy1 = .ok bookB1 [] ∧
    OrderBook.AddOrder 3 bookS1 (mkOrder .fillOrKill 7 .sell 200 5) = .ok bookS1 [] ∧
    bookB1.CanMatch .buy 100 = false ∧
    bookS1.CanMatch .sell 100 = false ∧
    bookB1.CancelOrder 99 = some bookB1 ∧
    bookB1.MatchOrdersModify 3 ⟨99, .buy, 100, 5⟩ = .ok bookB1 [] :=
  ⟨claim_C7_silent_rejections.1 3 bookB1 oBuy1 (by decide),
   claim_C7_silent_rejections.2.1 3 bookS1 (mkOrder .fillOrKill 7 .sell 200 5) (by decide) (by decide),
   claim_C7_silent_rejections.2.2.1 bookB1 100 (by decide),
   claim_C7_silent_rejections.2.2.2.1 bookS1 100 (by decide),
   claim_C7_silent_rejections.2.2.2.2.1 bookB1 99 (by decide),
   claim_C7_silent_rejections.2.2.2.2.2 3 bookB1 ⟨99, .buy, 100, 5⟩ (by decide)⟩

/-- C1: the invariant fails on CancelOrder's buy branch.  Cancelling the
only resident buy order (added at price 100) leaves the bid index holding a
level at 100 with an empty queue: line 226 of src/Orderbook.cpp erases the
price from the ask map instead of the bid map. -/
theorem claim_C1_cancel_bug :
    OrderBook.AddOrder 5 emptyBook oBuy1 = .ok bookB1 [] ∧
    bookB1.CancelOrder 1 = some bugBook ∧
    bugBook.bids = [(100, [])] ∧
    residentBids bugBook = [] ∧
    bugBook.asks = [] := by decide

theorem matchLoop_bugBook2 (fuel : Nat) (acc : List Trade) :
    OrderBook.MatchLoop fuel bugBook2 acc = .outOfFuel := by
  induction fuel with
  | zero => rfl
  | succ n ih =>
    rw [show OrderBook.MatchLoop (n + 1) bugBook2 acc
          = OrderBook.MatchLoop n bugBook2 acc from rfl]
    exact ih

/-- C2: matching does not terminate on every reachable book.  After the
cancel bug leaves a ghost empty bid level at 100, submitting a sell at 100
makes the crossing loop spin forever: the top keys cross, the front bid
queue is empty, so the inner loop runs zero iterations and nothing changes;
the submission never returns for any fuel. -/
theorem claim_C2_nontermination :
    OrderBook.AddOrder 5 emptyBook oBuy1 = .ok bookB1 [] ∧
    bookB1.CancelOrder 1 = some bugBook ∧
    ∀ fuel, OrderBook.AddOrder fuel bugBook oSell2 = .outOfFuel := by
  refine ⟨by decide, by decide, fun fuel => ?_⟩
  show OrderBook.MatchLoop fuel bugBook2 [] = .outOfFuel
  exact matchLoop_bugBook2 fuel []

/-- C4 counterexample: a resting sell at 100 is crossed by an aggressive
buy at 105; the emitted trade's bid leg is recorded at 105 and its ask leg
at 100, so the two legs do not carry the same price and the bid leg does
not carry the resting order's price. -/
theorem claim_C4_counterexample :
    OrderBook.AddOrder 5 emptyBook oSell1 = .ok bookS1 [] ∧
    OrderBook.AddOrder 5 bookS1 oBuy2 = .ok emptyBook [⟨⟨2, 105, 5⟩, ⟨1, 100, 5⟩⟩] ∧
    oSell1.price = 100 ∧
    ¬ ((⟨⟨2, 105, 5⟩, ⟨1, 100, 5⟩⟩ : Trade).bidTrade.price
        = (⟨⟨2, 105, 5⟩, ⟨1, 100, 5⟩⟩ : Trade).askTrade.price) := by decide

/-- C9 counterexample: two resident buy orders of 2^31 at level 100 make
the level's true remaining sum 2^32, but GetLevelInfos accumulates in
uint32 and reports 0; and on the ghost level left by the cancel bug the
snapshot reports an entry for a level with no resident order at all. -/
theorem claim_C9_counterexample :
    OrderBook.AddOrder 5 emptyBook oW1 = .ok bookW1 [] ∧
    OrderBook.AddOrder 5 bookW1 oW2 = .ok bookW2 [] ∧
    bookW2.GetLevelInfos.1 = [⟨100, 0⟩] ∧
    ((residentBids bookW2).map (fun o => o.remainingQuantity)).sum = 2 ^ 32 ∧
    ¬ ((0 : Nat) = 2 ^ 32) ∧
    bugBook.GetLevelInfos.1 = [⟨100, 0⟩] ∧
    residentBids bugBook = [] := by decide

theorem Order.sameStatic_refl (o : Order) : o.sameStatic o :=
  ⟨rfl, rfl, rfl, rfl, rfl, le_refl _⟩

theorem Order.sameStatic_trans {o1 o2 o3 : Order}
    (h1 : o1.sameStatic o2) (h2 : o2.sameStatic o3) : o1.sameStatic o3 := by
  obtain ⟨a1, b1, c1, d1, e1, f1⟩ := h1
  obtain ⟨a2, b2, c2, d2, e2, f2⟩ := h2
  exact ⟨a1.trans a2, b1.trans b2, c1.trans c2, d1.trans d2, e1.trans e2, f1.trans f2⟩

theorem Order.sameStatic_fill (o : Order) (q : Nat) :
    ({ o with remainingQuantity := o.remainingQuantity - q } : Order).sameStatic o :=
  ⟨rfl, rfl, rfl, rfl, rfl, Nat.sub_le _ _⟩

theorem regContains_regErase {r : Registry} {id i : Nat}
    (h : regContains (regErase r id) i = true) : regContains r i = true := by
  unfold regContains regErase at *
  obtain ⟨e, he, hei⟩ := List.any_eq_true.mp h
  exact List.any_eq_true.mpr ⟨e, List.mem_of_mem_filter he, hei⟩

theorem fillLevelF_isSome :
    ∀ (fuel : Nat) (bq aq : List Order) (reg : Registry),
      bq.length + aq.length ≤ fuel → (fillLevelF fuel bq aq reg).isSome = true := by
  intro fuel
  induction fuel with
  | zero =>
    intro bq aq reg h
    match bq, aq with
    | [], aq => simp [fillLevelF]
    | b :: bs, [] => simp [fillLevelF]
    | b :: bs, a :: as => simp at h
  | succ n ih =>
    intro bq aq reg h
    match bq, aq with
    | [], aq => simp [fillLevelF]
    | b :: bs, [] => simp [fillLevelF]
    | b :: bs, a :: as =>
      have hb : b.Fill (min b.remainingQuantity a.remainingQuantity)
          = some { b with remainingQuantity :=
              b.remainingQuantity - min b.remainingQuantity a.remainingQuantity } :=
        Order.Fill_eq_some.mpr ⟨Nat.min_le_left _ _, rfl⟩
      have ha : a.Fill (min b.remainingQuantity a.remainingQuantity)
          = some { a with remainingQuantity :=
              a.remainingQuantity - min b.remainingQuantity a.remainingQuantity } :=
        Order.Fill_eq_some.mpr ⟨Nat.min_le_right _ _, rfl⟩
      simp only [fillLevelF, hb, ha]
      simp only [List.length_cons] at h
      by_cases hbf : b.remainingQuantity - min b.remainingQuantity a.remainingQuantity = 0
      · rw [if_pos hbf]
        have hlen : bs.length +
            (if a.remainingQuantity - min b.remainingQuantity a.remainingQuantity = 0
              then as
              else { a with remainingQuantity :=
                a.remainingQuantity - min b.remainingQuantity a.remainingQuantity } :: as).length ≤ n := by
          split
          · omega
          · simp only [List.length_cons]
            omega
        have := ih bs _ (if a.remainingQuantity - min b.remainingQuantity a.remainingQuantity = 0
            then regErase (regErase reg b.orderId) a.orderId
            else regErase reg b.orderId) hlen
        obtain ⟨r, hr⟩ := Option.isSome_iff_exists.mp this
        obtain ⟨bq2, aq2, reg3, ts⟩ := r
        rw [hr]
        rfl
      · rw [if_neg hbf]
        have haf : a.remainingQuantity - min b.remainingQuantity a.remainingQuantity = 0 := by
          omega
        rw [if_pos haf]
        have hlen : (({ b with remainingQuantity :=
            b.remainingQuantity - min b.remainingQuantity a.remainingQuantity } : Order) :: bs).length
              + as.length ≤ n := by
          simp
          omega
        have := ih _ as (regErase reg a.orderId) hlen
        obtain ⟨r, hr⟩ := Option.isSome_iff_exists.mp this
        obtain ⟨bq2, aq2, reg3, ts⟩ := r
        rw [hr]
        rfl

theorem queueStaticSub_refl (l : List Order) : queueStaticSub l l :=
  fun o' h => ⟨o', h, Order.sameStatic_refl o'⟩

theorem queueStaticSub_weaken {l' l : List Order} (b : Order)
    (h : queueStaticSub l' l) : queueStaticSub l' (b :: l) :=
  fun o' ho => by
    obtain ⟨o, hm, hs⟩ := h o' ho
    exact ⟨o, List.mem_cons_of_mem _ hm, hs⟩

theorem queueStaticSub_head_swap {l' bs : List Order} {b' b : Order}
    (hs : b'.sameStatic b) (h : queueStaticSub l' (b' :: bs)) :
    queueStaticSub l' (b :: bs) := fun o' ho => by
  obtain ⟨o, hm, hos⟩ := h o' ho
  rcases List.mem_cons.mp hm with he | hm2
  · exact ⟨b, List.mem_cons_self _ _, Order.sameStatic_trans (he ▸ hos) hs⟩
  · exact ⟨o, List.mem_cons_of_mem _ hm2, hos⟩

theorem idsDropOf_refl (l : List Order) : idsDropOf l l := ⟨0, rfl⟩

theorem idsDropOf_cons {l' l : List Order} (b : Order)
    (h : idsDropOf l' l) : idsDropOf l' (b :: l) := by
  obtain ⟨k, hk⟩ := h
  exact ⟨k + 1, by simpa using hk⟩

theorem idsDropOf_head_swap {l' bs : List Order} {b' b : Order}
    (hid : b'.orderId = b.orderId) (h : idsDropOf l' (b' :: bs)) :
    idsDropOf l' (b :: bs) := by
  obtain ⟨k, hk⟩ := h
  refine ⟨k, ?_⟩
  simpa [hid] using hk

theorem regAntitone_refl (r : Registry) : regAntitone r r := fun _ h => h

theorem regAntitone_regErase (r : Registry) (id : Nat) :
    regAntitone (regErase r id) r := fun _ h => regContains_regErase h

theorem regAntitone_trans {r1 r2 r3 : Registry}
    (h1 : regAntitone r1 r2) (h2 : regAntitone r2 r3) : regAntitone r1 r3 :=
  fun i h => h2 i (h1 i h)

theorem tradeSrc_weaken_bid {bq aq : List Order} {t : Trade} (b : Order)
    (h : tradeSrc bq aq t) : tradeSrc (b :: bq) aq t := by
  obtain ⟨hq, ⟨b0, hb0, hb1⟩, hask⟩ := h
  exact ⟨hq, ⟨b0, List.mem_cons_of_mem _ hb0, hb1⟩, hask⟩

theorem tradeSrc_weaken_ask {bq aq : List Order} {t : Trade} (a : Order)
    (h : tradeSrc bq aq t) : tradeSrc bq (a :: aq) t := by
  obtain ⟨hq, hbid, ⟨a0, ha0, ha1⟩⟩ := h
  exact ⟨hq, hbid, ⟨a0, List.mem_cons_of_mem _ ha0, ha1⟩⟩

theorem tradeSrc_head_swap_bid {bq aq : List Order} {t : Trade} {b' b : Order}
    (h : tradeSrc (b' :: bq) aq t)
    (hid : b'.orderId = b.orderId) (hp : b'.price = b.price) : tradeSrc (b :: bq) aq t := by
  obtain ⟨hq, ⟨b0, hb0, hb1, hb2⟩, hask⟩ := h
  rcases List.mem_cons.mp hb0 with he | hm
  · subst he
    exact ⟨hq, ⟨b, List.mem_cons_self _ _, hid ▸ hb1, hp ▸ hb2⟩, hask⟩
  · exact ⟨hq, ⟨b0, List.mem_cons_of_mem _ hm, hb1, hb2⟩, hask⟩

theorem tradeSrc_head_swap_ask {bq aq : List Order} {t : Trade} {a' a : Order}
    (h : tradeSrc bq (a' :: aq) t)
    (hid : a'.orderId = a.orderId) (hp : a'.price = a.price) : tradeSrc bq (a :: aq) t := by
  obtain ⟨hq, hbid, ⟨a0, ha0, ha1, ha2⟩⟩ := h
  rcases List.mem_cons.mp ha0 with he | hm
  · subst he
    exact ⟨hq, hbid, ⟨a, List.mem_cons_self _ _, hid ▸ ha1, hp ▸ ha2⟩⟩
  · exact ⟨hq, hbid, ⟨a0, List.mem_cons_of_mem _ hm, ha1, ha2⟩⟩

theorem fillLevelF_spec :
    ∀ (fuel : Nat) (bq aq : List Order) (reg : Registry) (bq' aq' : List Order)
      (reg' : Registry) (ts : List Trade),
      fillLevelF fuel bq aq reg = some (bq', aq', reg', ts) →
      queueStaticSub bq' bq ∧ queueStaticSub aq' aq ∧
      idsDropOf bq' bq ∧ idsDropOf aq' aq ∧
      regAntitone reg' reg ∧
      ∀ t ∈ ts, tradeSrc bq aq t := by
  intro fuel
  induction fuel with
  | zero =>
    intro bq aq reg bq' aq' reg' ts h
    match bq, aq with
    | [], aq =>
      simp only [fillLevelF, Option.some.injEq, Prod.mk.injEq] at h
      obtain ⟨h1, h2, h3, h4⟩ := h
      subst h1; subst h2; subst h3; subst h4
      exact ⟨queueStaticSub_refl _, queueStaticSub_refl _, idsDropOf_refl _,
        idsDropOf_refl _, regAntitone_refl _, by simp⟩
    | b :: bs, [] =>
      simp only [fillLevelF, Option.some.injEq, Prod.mk.injEq] at h
      obtain ⟨h1, h2, h3, h4⟩ := h
      subst h1; subst h2; subst h3; subst h4
      exact ⟨queueStaticSub_refl _, queueStaticSub_refl _, idsDropOf_refl _,
        idsDropOf_refl _, regAntitone_refl _, by simp⟩
    | b :: bs, a :: as => simp [fillLevelF] at h
  | succ n ih =>
    intro bq aq reg bq' aq' reg' ts h
    match bq, aq with
    | [], aq =>
      simp only [fillLevelF, Option.some.injEq, Prod.mk.injEq] at h
      obtain ⟨h1, h2, h3, h4⟩ := h
      subst h1; subst h2; subst h3; subst h4
      exact ⟨queueStaticSub_refl _, queueStaticSub_refl _, idsDropOf_refl _,
        idsDropOf_refl _, regAntitone_refl _, by simp⟩
    | b :: bs, [] =>
      simp only [fillLevelF, Option.some.injEq, Prod.mk.injEq] at h
      obtain ⟨h1, h2, h3, h4⟩ := h
      subst h1; subst h2; subst h3; subst h4
      exact ⟨queueStaticSub_refl _, queueStaticSub_refl _, idsDropOf_refl _,
        idsDropOf_refl _, regAntitone_refl _, by simp⟩
    | b :: bs, a :: as =>
      have hb : b.Fill (min b.remainingQuantity a.remainingQuantity)
          = some { b with remainingQuantity :=
              b.remainingQuantity - min b.remainingQuantity a.remainingQuantity } :=
        Order.Fill_eq_some.mpr ⟨Nat.min_le_left _ _, rfl⟩
      have ha : a.Fill (min b.remainingQuantity a.remainingQuantity)
          = some { a with remainingQuantity :=
              a.remainingQuantity - min b.remainingQuantity a.remainingQuantity } :=
        Order.Fill_eq_some.mpr ⟨Nat.min_le_right _ _, rfl⟩
      simp only [fillLevelF, hb, ha] at h
      by_cases hbf : b.remainingQuantity - min b.remainingQuantity a.remainingQuantity = 0
      · rw [if_pos hbf] at h
        by_cases haf : a.remainingQuantity - min b.remainingQuantity a.remainingQuantity = 0
        · rw [if_pos haf, if_pos haf] at h
          cases hrec : fillLevelF n bs as (regErase (regErase reg b.orderId) a.orderId) with
          | none => rw [hrec] at h; simp at h
          | some r =>
            obtain ⟨bq2, aq2, reg3, ts2⟩ := r
            rw [hrec] at h
            simp only [Option.some.injEq, Prod.mk.injEq] at h
            obtain ⟨h1, h2, h3, h4⟩ := h
            subst h1; subst h2; subst h3; subst h4
            obtain ⟨s1, s2, s3, s4, s5, s6⟩ := ih bs as _ _ _ _ _ hrec
            refine ⟨queueStaticSub_weaken b s1, queueStaticSub_weaken a s2,
              idsDropOf_cons b s3, idsDropOf_cons a s4,
              regAntitone_trans s5 (regAntitone_trans (regAntitone_regErase _ _)
                (regAntitone_regErase _ _)), ?_⟩
            intro t ht
            rcases List.mem_cons.mp ht with he | hm
            · subst he
              exact ⟨rfl, ⟨b, List.mem_cons_self _ _, rfl, rfl⟩,
                ⟨a, List.mem_cons_self _ _, rfl, rfl⟩⟩
            · exact tradeSrc_weaken_bid b (tradeSrc_weaken_ask a (s6 t hm))
        · rw [if_neg haf, if_neg haf] at h
          cases hrec : fillLevelF n bs
              ({ a with remainingQuantity :=
                  a.remainingQuantity - min b.remainingQuantity a.remainingQuantity } :: as)
              (regErase reg b.orderId) with
          | none => rw [hrec] at h; simp at h
          | some r =>
            obtain ⟨bq2, aq2, reg3, ts2⟩ := r
            rw [hrec] at h
            simp only [Option.some.injEq, Prod.mk.injEq] at h
            obtain ⟨h1, h2, h3, h4⟩ := h
            subst h1; subst h2; subst h3; subst h4
            obtain ⟨s1, s2, s3, s4, s5, s6⟩ := ih bs _ _ _ _ _ _ hrec
            refine ⟨queueStaticSub_weaken b s1,
              queueStaticSub_head_swap (Order.sameStatic_fill a _) s2,
              idsDropOf_cons b s3, idsDropOf_head_swap rfl s4,
              regAntitone_trans s5 (regAntitone_regErase _ _), ?_⟩
            intro t ht
            rcases List.mem_cons.mp ht with he | hm
            · subst he
              exact ⟨rfl, ⟨b, List.mem_cons_self _ _, rfl, rfl⟩,
                ⟨a, List.mem_cons_self _ _, rfl, rfl⟩⟩
            · exact tradeSrc_weaken_bid b (tradeSrc_head_swap_ask (s6 t hm) rfl rfl)
      · rw [if_neg hbf] at h
        have haf : a.remainingQuantity - min b.remainingQuantity a.remainingQuantity = 0 := by
          omega
        rw [if_pos haf] at h
        cases hrec : fillLevelF n
            ({ b with remainingQuantity :=
                b.remainingQuantity - min b.remainingQuantity a.remainingQuantity } :: bs)
            as (regErase reg a.orderId) with
        | none => rw [hrec] at h; simp at h
        | some r =>
          obtain ⟨bq2, aq2, reg3, ts2⟩ := r
          rw [hrec] at h
          simp only [Option.some.injEq, Prod.mk.injEq] at h
          obtain ⟨h1, h2, h3, h4⟩ := h
          subst h1; subst h2; subst h3; subst h4
          obtain ⟨s1, s2, s3, s4, s5, s6⟩ := ih _ as _ _ _ _ _ hrec
          refine ⟨queueStaticSub_head_swap (Order.sameStatic_fill b _) s1,
            queueStaticSub_weaken a s2,
            idsDropOf_head_swap rfl s3, idsDropOf_cons a s4,
            regAntitone_trans s5 (regAntitone_regErase _ _), ?_⟩
          intro t ht
          rcases List.mem_cons.mp ht with he | hm
          · subst he
            exact ⟨rfl, ⟨b, List.mem_cons_self _ _, rfl, rfl⟩,
              ⟨a, List.mem_cons_self _ _, rfl, rfl⟩⟩
          · exact tradeSrc_head_swap_bid (tradeSrc_weaken_ask a (s6 t hm)) rfl rfl

theorem staticSub_refl (s : OrderBook) : staticSub s s :=
  ⟨queueStaticSub_refl _, queueStaticSub_refl _⟩

theorem staticSub_trans {s1 s2 s3 : OrderBook}
    (h1 : staticSub s1 s2) (h2 : staticSub s2 s3) : staticSub s1 s3 := by
  refine ⟨fun o' ho => ?_, fun o' ho => ?_⟩
  · obtain ⟨o, hm, hs⟩ := h1.1 o' ho
    obtain ⟨o2, hm2, hs2⟩ := h2.1 o hm
    exact ⟨o2, hm2, Order.sameStatic_trans hs hs2⟩
  · obtain ⟨o, hm, hs⟩ := h1.2 o' ho
    obtain ⟨o2, hm2, hs2⟩ := h2.2 o hm
    exact ⟨o2, hm2, Order.sameStatic_trans hs hs2⟩

theorem mem_levels_setLevelAt {p : Int} {q' : List Order} {l : List Level} {o : Order}
    (h : o ∈ ((setLevelAt p q' l).map (fun e => e.2)).flatten) :
    o ∈ (l.map (fun e => e.2)).flatten ∨ o ∈ q' := by
  simp only [setLevelAt, List.map_map, List.mem_flatten, List.mem_map, Function.comp] at h
  obtain ⟨le, ⟨e, hel, heq⟩, ho⟩ := h
  by_cases hp : e.1 = p
  · rw [if_pos hp] at heq
    right
    rw [← heq] at ho
    exact ho
  · rw [if_neg hp] at heq
    left
    simp only [List.mem_flatten, List.mem_map]
    exact ⟨le, ⟨e, hel, by rw [← heq]⟩, ho⟩

theorem mem_levels_eraseLevel {p : Int} {l : List Level} {o : Order}
    (h : o ∈ ((eraseLevel p l).map (fun e => e.2)).flatten) :
    o ∈ (l.map (fun e => e.2)).flatten := by
  simp only [eraseLevel, List.mem_flatten, List.mem_map] at *
  obtain ⟨le, ⟨e, hel, heq⟩, ho⟩ := h
  exact ⟨le, ⟨e, List.mem_of_mem_filter hel, heq⟩, ho⟩

theorem mem_of_eraseOrderById {id : Nat} {q : List Order} {o : Order}
    (h : o ∈ eraseOrderById id q) : o ∈ q :=
  List.mem_of_mem_eraseP h

theorem findLevel_mem {p : Int} {l : List Level} {q : List Order}
    (h : findLevel p l = some q) : ∃ e ∈ l, e.1 = p ∧ e.2 = q := by
  unfold findLevel at h
  cases hf : l.find? (fun e => decide (e.1 = p)) with
  | none => rw [hf] at h; simp at h
  | some e =>
    rw [hf] at h
    simp only [Option.map_some', Option.some.injEq] at h
    refine ⟨e, List.mem_of_find?_eq_some hf, ?_, h⟩
    have := List.find?_some hf
    simpa using this

theorem mem_levels_of_mem_queue {l : List Level} {e : Level} {o : Order}
    (he : e ∈ l) (ho : o ∈ e.2) : o ∈ (l.map (fun x => x.2)).flatten := by
  simp only [List.mem_flatten, List.mem_map]
  exact ⟨e.2, ⟨e, he, rfl⟩, ho⟩

/-- CancelOrder never adds anything: the resulting book's residents embed
into the old ones and the registry only loses entries. -/
theorem cancelOrder_staticSub {s s1 : OrderBook} {id : Nat}
    (h : s.CancelOrder id = some s1) :
    staticSub s1 s ∧ regAntitone s1.orders s.orders := by
  unfold OrderBook.CancelOrder at h
  split at h
  · simp only [Option.some.injEq] at h
    subst h
    exact ⟨staticSub_refl s, regAntitone_refl _⟩
  · split at h
    · -- sell branch
      split at h
      · simp at h
      · next q hfl =>
        obtain ⟨eq, heq, heqp, heqq⟩ := findLevel_mem hfl
        split at h <;>
          (simp only [Option.some.injEq] at h; subst h) <;>
          refine ⟨⟨fun o' ho => ⟨o', ho, Order.sameStatic_refl o'⟩, fun o' ho => ?_⟩,
            regAntitone_regErase _ _⟩
        · exact ⟨o', mem_levels_eraseLevel ho, Order.sameStatic_refl o'⟩
        · rcases mem_levels_setLevelAt ho with hm | hm
          · exact ⟨o', hm, Order.sameStatic_refl o'⟩
          · refine ⟨o', ?_, Order.sameStatic_refl o'⟩
            have hq : o' ∈ q := mem_of_eraseOrderById hm
            exact mem_levels_of_mem_queue heq (heqq ▸ hq)
    · -- buy branch
      split at h
      · simp at h
      · next q hfl =>
        obtain ⟨eq, heq, heqp, heqq⟩ := findLevel_mem hfl
        split at h <;>
          (simp only [Option.some.injEq] at h; subst h) <;>
          refine ⟨⟨fun o' ho => ?_, fun o' ho => ?_⟩, regAntitone_regErase _ _⟩
        · rcases mem_levels_setLevelAt ho with hm | hm
          · exact ⟨o', hm, Order.sameStatic_refl o'⟩
          · refine ⟨o', ?_, Order.sameStatic_refl o'⟩
            have hq : o' ∈ q := mem_of_eraseOrderById hm
            exact mem_levels_of_mem_queue heq (heqq ▸ hq)
        · exact ⟨o', mem_levels_eraseLevel ho, Order.sameStatic_refl o'⟩
        · rcases mem_levels_setLevelAt ho with hm | hm
          · exact ⟨o', hm, Order.sameStatic_refl o'⟩
          · refine ⟨o', ?_, Order.sameStatic_refl o'⟩
            have hq : o' ∈ q := mem_of_eraseOrderById hm
            exact mem_levels_of_mem_queue heq (heqq ▸ hq)
        · exact ⟨o', ho, Order.sameStatic_refl o'⟩

theorem finishAsks_ok {s s' : OrderBook} {acc tr : List Trade}
    (h : s.finishAsks acc = .ok s' tr) :
    tr = acc ∧ staticSub s' s ∧ regAntitone s'.orders s.orders := by
  unfold OrderBook.finishAsks at h
  split at h
  · simp only [MatchResult.ok.injEq] at h
    obtain ⟨h1, h2⟩ := h
    subst h1; subst h2
    exact ⟨rfl, staticSub_refl s, regAntitone_refl _⟩
  · simp at h
  · split at h
    · split at h
      · next s1 hc =>
        simp only [MatchResult.ok.injEq] at h
        obtain ⟨h1, h2⟩ := h
        subst h1; subst h2
        obtain ⟨hs, hr⟩ := cancelOrder_staticSub hc
        exact ⟨rfl, hs, hr⟩
      · simp at h
    · simp only [MatchResult.ok.injEq] at h
      obtain ⟨h1, h2⟩ := h
      subst h1; subst h2
      exact ⟨rfl, staticSub_refl s, regAntitone_refl _⟩

theorem finishMatch_ok {s s' : OrderBook} {acc tr : List Trade}
    (h : s.finishMatch acc = .ok s' tr) :
    tr = acc ∧ staticSub s' s ∧ regAntitone s'.orders s.orders := by
  unfold OrderBook.finishMatch at h
  split at h
  · exact finishAsks_ok h
  · simp at h
  · split at h
    · split at h
      · next s1 hc =>
        obtain ⟨h1, h2, h3⟩ := finishAsks_ok h
        obtain ⟨hs, hr⟩ := cancelOrder_staticSub hc
        exact ⟨h1, staticSub_trans h2 hs, regAntitone_trans h3 hr⟩
      · simp at h
    · exact finishAsks_ok h

theorem queue_step_sub {bp : Int} {bq bq' : List Order} {rb : List Level}
    (hsub : queueStaticSub bq' bq) :
    ∀ o' ∈ ((if bq' = [] then rb else (bp, bq') :: rb).map (fun e => e.2)).flatten,
      ∃ o ∈ (((bp, bq) :: rb).map (fun e => e.2)).flatten, o'.sameStatic o := by
  intro o' ho
  simp only [List.map_cons, List.flatten_cons, List.mem_append]
  by_cases hb : bq' = []
  · rw [if_pos hb] at ho
    exact ⟨o', Or.inr ho, Order.sameStatic_refl o'⟩
  · rw [if_neg hb] at ho
    simp only [List.map_cons, List.flatten_cons, List.mem_append] at ho
    rcases ho with h1 | h2
    · obtain ⟨o, hm, hs⟩ := hsub o' h1
      exact ⟨o, Or.inl hm, hs⟩
    · exact ⟨o', Or.inr h2, Order.sameStatic_refl o'⟩

theorem tradeSrcBook_of_head {s : OrderBook} {bp ap : Int} {bq aq : List Order}
    {rb ra : List Level} {t : Trade}
    (hb : s.bids = (bp, bq) :: rb) (ha : s.asks = (ap, aq) :: ra)
    (h : tradeSrc bq aq t) : tradeSrcBook s t := by
  obtain ⟨hq, ⟨b, hbm, h1, h2⟩, ⟨a, ham, h3, h4⟩⟩ := h
  refine ⟨hq, ⟨b, ?_, h1, h2⟩, ⟨a, ?_, h3, h4⟩⟩
  · unfold residentBids
    rw [hb]
    simp only [List.map_cons, List.flatten_cons, List.mem_append]
    exact Or.inl hbm
  · unfold residentAsks
    rw [ha]
    simp only [List.map_cons, List.flatten_cons, List.mem_append]
    exact Or.inl ham

theorem tradeSrcBook_of_staticSub {s2 s : OrderBook} {t : Trade}
    (hsub : staticSub s2 s) (h : tradeSrcBook s2 t) : tradeSrcBook s t := by
  obtain ⟨hq, ⟨b, hbm, h1, h2⟩, ⟨a, ham, h3, h4⟩⟩ := h
  obtain ⟨b0, hb0, hbs⟩ := hsub.1 b hbm
  obtain ⟨a0, ha0, has⟩ := hsub.2 a ham
  exact ⟨hq, ⟨b0, hb0, hbs.2.1 ▸ h1, hbs.2.2.2.1 ▸ h2⟩,
    ⟨a0, ha0, has.2.1 ▸ h3, has.2.2.2.1 ▸ h4⟩⟩

/-- The matching loop only ever removes or further fills resident orders,
only erases registry entries, and appends trades sourced from orders
resident at call time. -/
theorem matchLoop_ok :
    ∀ (fuel : Nat) (s : OrderBook) (acc : List Trade) (s' : OrderBook) (tr : List Trade),
      OrderBook.MatchLoop fuel s acc = .ok s' tr →
      staticSub s' s ∧ regAntitone s'.orders s.orders ∧
        ∃ ts, tr = acc ++ ts ∧ ∀ t ∈ ts, tradeSrcBook s t := by
  intro fuel
  induction fuel with
  | zero =>
    intro s acc s' tr h
    simp [OrderBook.MatchLoop] at h
  | succ n ih =>
    intro s acc s' tr h
    rw [show OrderBook.MatchLoop (n + 1) s acc
        = (match s.bids, s.asks with
          | [], _ => s.finishMatch acc
          | _ :: _, [] => s.finishMatch acc
          | (bp, bq) :: rb, (ap, aq) :: ra =>
            if bp < ap then s.finishMatch acc
            else
              match bq, aq with
              | [], _ => OrderBook.MatchLoop n s acc
              | _ :: _, [] => OrderBook.MatchLoop n s acc
              | _ :: _, _ :: _ =>
                match FillLevel bq aq s.orders with
                | none => .fillErr
                | some (bq', aq', reg', ts) =>
                  OrderBook.MatchLoop n
                    ⟨if bq' = [] then rb else (bp, bq') :: rb,
                     if aq' = [] then ra else (ap, aq') :: ra, reg'⟩ (acc ++ ts)) from rfl] at h
    split at h
    · obtain ⟨h1, h2, h3⟩ := finishMatch_ok h
      exact ⟨h2, h3, [], by simp [h1], by simp⟩
    · obtain ⟨h1, h2, h3⟩ := finishMatch_ok h
      exact ⟨h2, h3, [], by simp [h1], by simp⟩
    · next bp bq rb ap aq ra hbids hasks =>
      split at h
      · obtain ⟨h1, h2, h3⟩ := finishMatch_ok h
        exact ⟨h2, h3, [], by simp [h1], by simp⟩
      · split at h
        · exact ih s acc s' tr h
        · exact ih s acc s' tr h
        · next b bs a as =>
          split at h
          · simp at h
          · next bq' aq' reg' ts0 hfl =>
            obtain ⟨i1, i2, ts1, hts1, hsrc1⟩ := ih _ _ _ _ h
            obtain ⟨f1, f2, f3, f4, f5, f6⟩ :=
              fillLevelF_spec ((b :: bs).length + (a :: as).length) (b :: bs) (a :: as)
                s.orders bq' aq' reg' ts0 hfl
            have hstep : staticSub
                ⟨if bq' = [] then rb else (bp, bq') :: rb,
                 if aq' = [] then ra else (ap, aq') :: ra, reg'⟩ s := by
              constructor
              · intro o' ho
                have := queue_step_sub f1 o' ho
                unfold residentBids
                rw [hbids]
                exact this
              · intro o' ho
                have := queue_step_sub f2 o' ho
                unfold residentAsks
                rw [hasks]
                exact this
            refine ⟨staticSub_trans i1 hstep, ?_, ts0 ++ ts1, by simp [hts1], ?_⟩
            · intro i hi
              exact f5 i (i2 i hi)
            · intro t ht
              rcases List.mem_append.mp ht with h1 | h2
              · exact tradeSrcBook_of_head hbids hasks (f6 t h1)
              · exact tradeSrcBook_of_staticSub hstep (hsrc1 t h2)

theorem regContains_regErase_self (r : Registry) (id : Nat) :
    regContains (regErase r id) id = false := by
  unfold regContains regErase
  rw [List.any_eq_false]
  intro e he
  have := List.of_mem_filter he
  simp at this ⊢
  exact this

theorem regAntitone_not_contains {r' r : Registry} {id : Nat}
    (h : regAntitone r' r) (hc : regContains r id = false) :
    regContains r' id = false := by
  cases hx : regContains r' id with
  | false => rfl
  | true => rw [h id hx] at hc; exact hc.symm ▸ rfl

/-- One unfolding of the inner loop: the first trade recorded is between
the two front orders, for the min of their remaining quantities. -/
theorem fillLevelF_head {fuel : Nat} {b a : Order} {bs as : List Order} {reg : Registry}
    {bq' aq' : List Order} {reg' : Registry} {ts : List Trade}
    (h : fillLevelF (fuel + 1) (b :: bs) (a :: as) reg = some (bq', aq', reg', ts)) :
    ∃ rest, ts = mkTrade b a (min b.remainingQuantity a.remainingQuantity) :: rest := by
  have hb : b.Fill (min b.remainingQuantity a.remainingQuantity)
      = some { b with remainingQuantity :=
          b.remainingQuantity - min b.remainingQuantity a.remainingQuantity } :=
    Order.Fill_eq_some.mpr ⟨Nat.min_le_left _ _, rfl⟩
  have ha : a.Fill (min b.remainingQuantity a.remainingQuantity)
      = some { a with remainingQuantity :=
          a.remainingQuantity - min b.remainingQuantity a.remainingQuantity } :=
    Order.Fill_eq_some.mpr ⟨Nat.min_le_right _ _, rfl⟩
  simp only [fillLevelF, hb, ha] at h
  by_cases hbf : b.remainingQuantity - min b.remainingQuantity a.remainingQuantity = 0
  · rw [if_pos hbf] at h
    cases hrec : fillLevelF fuel bs
        (if a.remainingQuantity - min b.remainingQuantity a.remainingQuantity = 0
          then as
          else { a with remainingQuantity :=
            a.remainingQuantity - min b.remainingQuantity a.remainingQuantity } :: as)
        (if a.remainingQuantity - min b.remainingQuantity a.remainingQuantity = 0
          then regErase (regErase reg b.orderId) a.orderId
          else regErase reg b.orderId) with
    | none => rw [hrec] at h; simp at h
    | some r =>
      obtain ⟨bq2, aq2, reg3, ts2⟩ := r
      rw [hrec] at h
      simp only [Option.some.injEq, Prod.mk.injEq] at h
      exact ⟨ts2, h.2.2.2.symm⟩
  · rw [if_neg hbf] at h
    have haf : a.remainingQuantity - min b.remainingQuantity a.remainingQuantity = 0 := by
      omega
    rw [if_pos haf] at h
    cases hrec : fillLevelF fuel
        ({ b with remainingQuantity :=
            b.remainingQuantity - min b.remainingQuantity a.remainingQuantity } :: bs)
        as (regErase reg a.orderId) with
    | none => rw [hrec] at h; simp at h
    | some r =>
      obtain ⟨bq2, aq2, reg3, ts2⟩ := r
      rw [hrec] at h
      simp only [Option.some.injEq, Prod.mk.injEq] at h
      exact ⟨ts2, h.2.2.2.symm⟩

/-- When the front bid order already has remaining quantity zero, the inner
loop records a zero-quantity trade for it and deregisters it. -/
theorem fillLevelF_zero_front {fuel : Nat} {b a : Order} {bs as : List Order} {reg : Registry}
    {bq' aq' : List Order} {reg' : Registry} {ts : List Trade}
    (hz : b.remainingQuantity = 0)
    (h : fillLevelF (fuel + 1) (b :: bs) (a :: as) reg = some (bq', aq', reg', ts)) :
    (∃ rest, ts = mkTrade b a 0 :: rest) ∧ regContains reg' b.orderId = false := by
  have hmin : min b.remainingQuantity a.remainingQuantity = 0 := by omega
  have hb : b.Fill (min b.remainingQuantity a.remainingQuantity)
      = some { b with remainingQuantity :=
          b.remainingQuantity - min b.remainingQuantity a.remainingQuantity } :=
    Order.Fill_eq_some.mpr ⟨Nat.min_le_left _ _, rfl⟩
  have ha : a.Fill (min b.remainingQuantity a.remainingQuantity)
      = some { a with remainingQuantity :=
          a.remainingQuantity - min b.remainingQuantity a.remainingQuantity } :=
    Order.Fill_eq_some.mpr ⟨Nat.min_le_right _ _, rfl⟩
  have hbf : b.remainingQuantity - min b.remainingQuantity a.remainingQuantity = 0 := by omega
  simp only [fillLevelF, hb, ha] at h
  rw [if_pos hbf] at h
  cases hrec : fillLevelF fuel bs
      (if a.remainingQuantity - min b.remainingQuantity a.remainingQuantity = 0
        then as
        else { a with remainingQuantity :=
          a.remainingQuantity - min b.remainingQuantity a.remainingQuantity } :: as)
      (if a.remainingQuantity - min b.remainingQuantity a.remainingQuantity = 0
        then regErase (regErase reg b.orderId) a.orderId
        else regErase reg b.orderId) with
  | none => rw [hrec] at h; simp at h
  | some r =>
    obtain ⟨bq2, aq2, reg3, ts2⟩ := r
    rw [hrec] at h
    simp only [Option.some.injEq, Prod.mk.injEq] at h
    obtain ⟨h1, h2, h3, h4⟩ := h
    subst h3
    obtain ⟨-, -, -, -, f5, -⟩ := fillLevelF_spec fuel bs _ _ _ _ _ _ hrec
    constructor
    · exact ⟨ts2, by rw [← h4, hmin]⟩
    · refine regAntitone_not_contains f5 ?_
      split
      · cases hx : regContains (regErase (regErase reg b.orderId) a.orderId) b.orderId with
        | false => rfl
        | true =>
          have h2 := regContains_regErase hx
          rw [regContains_regErase_self] at h2
          exact absurd h2 (by simp)
      · exact regContains_regErase_self reg b.orderId

theorem mem_levels_insertLevelDesc {o x : Order} {l : List Level}
    (h : x ∈ ((insertLevelDesc o l).map (fun e => e.2)).flatten) :
    x ∈ (l.map (fun e => e.2)).flatten ∨ x = o := by
  induction l with
  | nil =>
    simp only [insertLevelDesc, List.map_cons, List.map_nil, List.flatten_cons,
      List.flatten_nil, List.append_nil, List.mem_singleton] at h
    exact Or.inr h
  | cons e rest ih =>
    obtain ⟨p, os⟩ := e
    simp only [insertLevelDesc] at h
    split at h
    · simp only [List.map_cons, List.flatten_cons, List.mem_append, List.mem_singleton] at h
      simp only [List.map_cons, List.flatten_cons, List.mem_append]
      tauto
    · split at h
      · simp only [List.map_cons, List.flatten_cons, List.mem_append, List.mem_singleton] at h
        simp only [List.map_cons, List.flatten_cons, List.mem_append]
        tauto
      · simp only [List.map_cons, List.flatten_cons, List.mem_append] at h
        simp only [List.map_cons, List.flatten_cons, List.mem_append]
        rcases h with h | h
        · tauto
        · rcases ih h with h2 | h2 <;> tauto

theorem mem_levels_insertLevelAsc {o x : Order} {l : List Level}
    (h : x ∈ ((insertLevelAsc o l).map (fun e => e.2)).flatten) :
    x ∈ (l.map (fun e => e.2)).flatten ∨ x = o := by
  induction l with
  | nil =>
    simp only [insertLevelAsc, List.map_cons, List.map_nil, List.flatten_cons,
      List.flatten_nil, List.append_nil, List.mem_singleton] at h
    exact Or.inr h
  | cons e rest ih =>
    obtain ⟨p, os⟩ := e
    simp only [insertLevelAsc] at h
    split at h
    · simp only [List.map_cons, List.flatten_cons, List.mem_append, List.mem_singleton] at h
      simp only [List.map_cons, List.flatten_cons, List.mem_append]
      tauto
    · split at h
      · simp only [List.map_cons, List.flatten_cons, List.mem_append, List.mem_singleton] at h
        simp only [List.map_cons, List.flatten_cons, List.mem_append]
        tauto
      · simp only [List.map_cons, List.flatten_cons, List.mem_append] at h
        simp only [List.map_cons, List.flatten_cons, List.mem_append]
        rcases h with h | h
        · tauto
        · rcases ih h with h2 | h2 <;> tauto

theorem remLe_of_staticSub {s' s : OrderBook} (h : remLe s) (hsub : staticSub s' s) :
    remLe s' := by
  constructor
  · intro o' ho
    obtain ⟨o, hm, hs⟩ := hsub.1 o' ho
    calc o'.remainingQuantity ≤ o.remainingQuantity := hs.2.2.2.2.2
      _ ≤ o.initialQuantity := h.1 o hm
      _ = o'.initialQuantity := hs.2.2.2.2.1.symm
  · intro o' ho
    obtain ⟨o, hm, hs⟩ := hsub.2 o' ho
    calc o'.remainingQuantity ≤ o.remainingQuantity := hs.2.2.2.2.2
      _ ≤ o.initialQuantity := h.2 o hm
      _ = o'.initialQuantity := hs.2.2.2.2.1.symm

theorem remLe_insertOrder {s : OrderBook} {o : Order} (h : remLe s)
    (ho : o.remainingQuantity ≤ o.initialQuantity) : remLe (s.insertOrder o) := by
  unfold OrderBook.insertOrder
  cases o.side
  · constructor
    · intro x hx
      rcases mem_levels_insertLevelDesc hx with hm | he
      · exact h.1 x hm
      · subst he; exact ho
    · exact h.2
  · constructor
    · exact h.1
    · intro x hx
      rcases mem_levels_insertLevelAsc hx with hm | he
      · exact h.2 x hm
      · subst he; exact ho

theorem remLe_addOrder {fuel : Nat} {s s' : OrderBook} {o : Order} {tr : List Trade}
    (h : remLe s) (ho : o.remainingQuantity ≤ o.initialQuantity)
    (hadd : OrderBook.AddOrder fuel s o = .ok s' tr) : remLe s' := by
  unfold OrderBook.AddOrder at hadd
  split at hadd
  · simp only [MatchResult.ok.injEq] at hadd
    exact hadd.1 ▸ h
  · split at hadd
    · simp only [MatchResult.ok.injEq] at hadd
      exact hadd.1 ▸ h
    · obtain ⟨hsub, -, -⟩ := matchLoop_ok _ _ _ _ _ hadd
      exact remLe_of_staticSub (remLe_insertOrder h ho) hsub

theorem FillLevel_isSome (bq aq : List Order) (reg : Registry) :
    (FillLevel bq aq reg).isSome = true :=
  fillLevelF_isSome _ _ _ _ (le_refl _)

theorem FillLevel_ne_none (bq aq : List Order) (reg : Registry) :
    FillLevel bq aq reg ≠ none := by
  intro h
  have h2 := FillLevel_isSome bq aq reg
  rw [h] at h2
  simp at h2

theorem finishAsks_not_fillErr (s : OrderBook) (acc : List Trade) :
    (s.finishAsks acc).isFillErr = false := by
  unfold OrderBook.finishAsks
  split
  · rfl
  · rfl
  · split
    · split
      · rfl
      · rfl
    · rfl

theorem finishMatch_not_fillErr (s : OrderBook) (acc : List Trade) :
    (s.finishMatch acc).isFillErr = false := by
  unfold OrderBook.finishMatch
  split
  · exact finishAsks_not_fillErr _ _
  · rfl
  · split
    · split
      · exact finishAsks_not_fillErr _ _
      · rfl
    · exact finishAsks_not_fillErr _ _

theorem matchLoop_not_fillErr :
    ∀ (fuel : Nat) (s : OrderBook) (acc : List Trade),
      (OrderBook.MatchLoop fuel s acc).isFillErr = false := by
  intro fuel
  induction fuel with
  | zero => intro s acc; rfl
  | succ n ih =>
    intro s acc
    rw [show OrderBook.MatchLoop (n + 1) s acc
        = (match s.bids, s.asks with
          | [], _ => s.finishMatch acc
          | _ :: _, [] => s.finishMatch acc
          | (bp, bq) :: rb, (ap, aq) :: ra =>
            if bp < ap then s.finishMatch acc
            else
              match bq, aq with
              | [], _ => OrderBook.MatchLoop n s acc
              | _ :: _, [] => OrderBook.MatchLoop n s acc
              | _ :: _, _ :: _ =>
                match FillLevel bq aq s.orders with
                | none => .fillErr
                | some (bq', aq', reg', ts) =>
                  OrderBook.MatchLoop n
                    ⟨if bq' = [] then rb else (bp, bq') :: rb,
                     if aq' = [] then ra else (ap, aq') :: ra, reg'⟩ (acc ++ ts)) from rfl]
    split
    · exact finishMatch_not_fillErr _ _
    · exact finishMatch_not_fillErr _ _
    · split
      · exact finishMatch_not_fillErr _ _
      · split
        · exact ih _ _
        · exact ih _ _
        · split
          · next hfl => exact absurd hfl (FillLevel_ne_none _ _ _)
          · exact ih _ _

/-- C4 (amended): every trade emitted by the matching loop carries one
common matched quantity on both legs, and each leg records the id and the
limit price of its own participating order (the bid leg a resident buy
order's, the ask leg a resident sell order's) - not the resting order's
price for both legs. -/
theorem claim_C4_amended :
    ∀ (fuel : Nat) (s s' : OrderBook) (tr : List Trade),
      OrderBook.MatchLoop fuel s [] = .ok s' tr →
      ∀ t ∈ tr, t.bidTrade.quantity = t.askTrade.quantity ∧
        (∃ b ∈ residentBids s, b.orderId = t.bidTrade.orderId ∧ b.price = t.bidTrade.price) ∧
        (∃ a ∈ residentAsks s, a.orderId = t.askTrade.orderId ∧ a.price = t.askTrade.price) := by
  intro fuel s s' tr h t ht
  obtain ⟨-, -, ts, hts, hsrc⟩ := matchLoop_ok fuel s [] s' tr h
  rw [hts] at ht
  exact hsrc t (by simpa using ht)

theorem claim_C4_amended_witness :
    (⟨⟨2, 105, 5⟩, ⟨1, 100, 5⟩⟩ : Trade).bidTrade.quantity
        = (⟨⟨2, 105, 5⟩, ⟨1, 100, 5⟩⟩ : Trade).askTrade.quantity ∧
      (∃ b ∈ residentBids (bookS1.insertOrder oBuy2),
        b.orderId = (⟨⟨2, 105, 5⟩, ⟨1, 100, 5⟩⟩ : Trade).bidTrade.orderId ∧
        b.price = (⟨⟨2, 105, 5⟩, ⟨1, 100, 5⟩⟩ : Trade).bidTrade.price) ∧
      (∃ a ∈ residentAsks (bookS1.insertOrder oBuy2),
        a.orderId = (⟨⟨2, 105, 5⟩, ⟨1, 100, 5⟩⟩ : Trade).askTrade.orderId ∧
        a.price = (⟨⟨2, 105, 5⟩, ⟨1, 100, 5⟩⟩ : Trade).askTrade.price) :=
  claim_C4_amended 5 (bookS1.insertOrder oBuy2) emptyBook
    [⟨⟨2, 105, 5⟩, ⟨1, 100, 5⟩⟩] (by decide) ⟨⟨2, 105, 5⟩, ⟨1, 100, 5⟩⟩ (by decide)

theorem remLe_modify {fuel : Nat} {s s' : OrderBook} {m : OrderModify} {tr : List Trade}
    (h : remLe s) (hm : s.MatchOrdersModify fuel m = .ok s' tr) : remLe s' := by
  unfold OrderBook.MatchOrdersModify at hm
  split at hm
  · simp only [MatchResult.ok.injEq] at hm
    exact hm.1 ▸ h
  · split at hm
    · simp at hm
    · next s1 hc =>
      have h1 : remLe s1 := remLe_of_staticSub h (cancelOrder_staticSub hc).1
      exact remLe_addOrder h1 (le_refl _) hm

/-- C5: every trade the inner loop records between two front orders is for
the min of their pre-trade remaining quantities; Order::Fill decreases the
remaining quantity by exactly the filled amount (leaving the initial
quantity untouched); and the resident-remaining-at-most-initial invariant
is preserved by AddOrder (on constructor-built orders), CancelOrder and
the modify overload. -/
theorem claim_C5_quantity_conservative :
    (∀ (fuel : Nat) (b a : Order) (bs as : List Order) (reg : Registry)
        (bq' aq' : List Order) (reg' : Registry) (ts : List Trade),
      fillLevelF (fuel + 1) (b :: bs) (a :: as) reg = some (bq', aq', reg', ts) →
      ∃ rest, ts = mkTrade b a (min b.remainingQuantity a.remainingQuantity) :: rest) ∧
    (∀ (o : Order) (q : Nat), q ≤ o.remainingQuantity →
      o.Fill q = some { o with remainingQuantity := o.remainingQuantity - q }) ∧
    (∀ (o o' : Order) (q : Nat), o.Fill q = some o' →
      o'.remainingQuantity = o.remainingQuantity - q ∧
        o'.initialQuantity = o.initialQuantity) ∧
    (∀ (fuel : Nat) (s s' : OrderBook) (t : OrderType) (id : Nat) (sd : Side) (p : Int)
        (q : Nat) (tr : List Trade), remLe s →
      OrderBook.AddOrder fuel s (mkOrder t id sd p q) = .ok s' tr → remLe s') ∧
    (∀ (s s1 : OrderBook) (id : Nat), remLe s → s.CancelOrder id = some s1 → remLe s1) ∧
    (∀ (fuel : Nat) (s s' : OrderBook) (m : OrderModify) (tr : List Trade), remLe s →
      s.MatchOrdersModify fuel m = .ok s' tr → remLe s') := by
  refine ⟨?_, ?_, ?_, ?_, ?_, ?_⟩
  · intro fuel b a bs as reg bq' aq' reg' ts h
    exact fillLevelF_head h
  · intro o q h
    exact Order.Fill_eq_some.mpr ⟨h, rfl⟩
  · intro o o' q h
    obtain ⟨h1, h2⟩ := Order.Fill_eq_some.mp h
    subst h2
    exact ⟨rfl, rfl⟩
  · intro fuel s s' t id sd p q tr h hadd
    exact remLe_addOrder h (le_refl _) hadd
  · intro s s1 id h hc
    exact remLe_of_staticSub h (cancelOrder_staticSub hc).1
  · intro fuel s s' m tr h hm
    exact remLe_modify h hm

theorem claim_C5_witness :
    (∃ rest, [mkTrade oBuy1 oSell1 (min oBuy1.remainingQuantity oSell1.remainingQuantity)]
        = mkTrade oBuy1 oSell1 (min oBuy1.remainingQuantity oSell1.remainingQuantity) :: rest) ∧
    oBuy1.Fill 3 = some { oBuy1 with remainingQuantity := oBuy1.remainingQuantity - 3 } ∧
    ((⟨.goodTillCancel, 1, .buy, 100, 10, 7⟩ : Order).remainingQuantity
        = oBuy1.remainingQuantity - 3 ∧
      (⟨.goodTillCancel, 1, .buy, 100, 10, 7⟩ : Order).initialQuantity
        = oBuy1.initialQuantity) ∧
    remLe bookB1 ∧ remLe bugBook ∧
    remLe (⟨[], [(101, [mkOrder .goodTillCancel 1 .sell 101 4])],
      [(1, ⟨.sell, 101, .goodTillCancel⟩)]⟩ : OrderBook) :=
  ⟨claim_C5_quantity_conservative.1 0 oBuy1 oSell1 [] [] []
      [⟨.goodTillCancel, 1, .buy, 100, 10, 5⟩] [] [] _ (by rfl),
   claim_C5_quantity_conservative.2.1 oBuy1 3 (by decide),
   claim_C5_quantity_conservative.2.2.1 oBuy1 ⟨.goodTillCancel, 1, .buy, 100, 10, 7⟩ 3
     (by decide),
   claim_C5_quantity_conservative.2.2.2.1 5 emptyBook bookB1 .goodTillCancel 1 .buy 100 10 []
     (by unfold remLe; decide) (by decide),
   claim_C5_quantity_conservative.2.2.2.2.1 bookB1 bugBook 1 (by unfold remLe; decide) (by decide),
   claim_C5_quantity_conservative.2.2.2.2.2 5 bookS1
     ⟨[], [(101, [mkOrder .goodTillCancel 1 .sell 101 4])],
       [(1, ⟨.sell, 101, .goodTillCancel⟩)]⟩ ⟨1, .sell, 101, 4⟩ []
     (by unfold remLe; decide) (by decide)⟩

/-- C6: Order::Fill raises exactly when asked to fill more than the
remaining quantity (it never clamps), the inner matching loop always fills
by the min of the two front remaining quantities so its Fill calls never
raise, and consequently no AddOrder or modify call ever surfaces the fill
error. -/
theorem claim_C6_fill_error_guard :
    (∀ (o : Order) (q : Nat), o.Fill q = none ↔ o.remainingQuantity < q) ∧
    (∀ (bq aq : List Order) (reg : Registry), (FillLevel bq aq reg).isSome = true) ∧
    (∀ (fuel : Nat) (s : OrderBook) (acc : List Trade),
      (OrderBook.MatchLoop fuel s acc).isFillErr = false) ∧
    (∀ (fuel : Nat) (s : OrderBook) (o : Order),
      (OrderBook.AddOrder fuel s o).isFillErr = false) ∧
    (∀ (fuel : Nat) (s : OrderBook) (m : OrderModify),
      (s.MatchOrdersModify fuel m).isFillErr = false) := by
  have haddf : ∀ (fuel : Nat) (s : OrderBook) (o : Order),
      (OrderBook.AddOrder fuel s o).isFillErr = false := by
    intro fuel s o
    unfold OrderBook.AddOrder
    split
    · rfl
    · split
      · rfl
      · exact matchLoop_not_fillErr _ _ _
  refine ⟨fun o q => Order.Fill_eq_none, FillLevel_isSome, matchLoop_not_fillErr, haddf, ?_⟩
  intro fuel s m
  unfold OrderBook.MatchOrdersModify
  split
  · rfl
  · split
    · rfl
    · exact haddf _ _ _

theorem exists_level_of_mem_flatten {l : List Level} {b : Order}
    (h : b ∈ (l.map (fun e => e.2)).flatten) : ∃ e ∈ l, b ∈ e.2 := by
  simp only [List.mem_flatten, List.mem_map] at h
  obtain ⟨q, ⟨e, hel, hq⟩, hb⟩ := h
  exact ⟨e, hel, hq ▸ hb⟩

theorem insertLevelDesc_key {o : Order} {l : List Level} {e : Level}
    (he : e ∈ insertLevelDesc o l) : e.1 = o.price ∨ e.1 ∈ l.map (fun x => x.1) := by
  induction l with
  | nil =>
    simp only [insertLevelDesc, List.mem_singleton] at he
    subst he
    exact Or.inl rfl
  | cons hd rest ih =>
    obtain ⟨p, os⟩ := hd
    simp only [insertLevelDesc] at he
    simp only [List.map_cons, List.mem_cons]
    split at he
    · rcases List.mem_cons.mp he with h1 | h1
      · subst h1
        exact Or.inl rfl
      · rcases List.mem_cons.mp h1 with h2 | h2
        · subst h2
          exact Or.inr (Or.inl rfl)
        · exact Or.inr (Or.inr (List.mem_map.mpr ⟨e, h2, rfl⟩))
    · split at he
      · rcases List.mem_cons.mp he with h1 | h1
        · subst h1
          exact Or.inr (Or.inl rfl)
        · exact Or.inr (Or.inr (List.mem_map.mpr ⟨e, h1, rfl⟩))
      · rcases List.mem_cons.mp he with h1 | h1
        · subst h1
          exact Or.inr (Or.inl rfl)
        · rcases ih h1 with h2 | h2
          · exact Or.inl h2
          · exact Or.inr (Or.inr h2)

theorem insertLevelAsc_key {o : Order} {l : List Level} {e : Level}
    (he : e ∈ insertLevelAsc o l) : e.1 = o.price ∨ e.1 ∈ l.map (fun x => x.1) := by
  induction l with
  | nil =>
    simp only [insertLevelAsc, List.mem_singleton] at he
    subst he
    exact Or.inl rfl
  | cons hd rest ih =>
    obtain ⟨p, os⟩ := hd
    simp only [insertLevelAsc] at he
    simp only [List.map_cons, List.mem_cons]
    split at he
    · rcases List.mem_cons.mp he with h1 | h1
      · subst h1
        exact Or.inl rfl
      · rcases List.mem_cons.mp h1 with h2 | h2
        · subst h2
          exact Or.inr (Or.inl rfl)
        · exact Or.inr (Or.inr (List.mem_map.mpr ⟨e, h2, rfl⟩))
    · split at he
      · rcases List.mem_cons.mp he with h1 | h1
        · subst h1
          exact Or.inr (Or.inl rfl)
        · exact Or.inr (Or.inr (List.mem_map.mpr ⟨e, h1, rfl⟩))
      · rcases List.mem_cons.mp he with h1 | h1
        · subst h1
          exact Or.inr (Or.inl rfl)
        · rcases ih h1 with h2 | h2
          · exact Or.inl h2
          · exact Or.inr (Or.inr h2)

theorem insertLevelDesc_pairwise {o : Order} {l : List Level}
    (h : levelsDesc l) : levelsDesc (insertLevelDesc o l) := by
  unfold levelsDesc at *
  induction l with
  | nil => simp [insertLevelDesc]
  | cons hd rest ih =>
    obtain ⟨p, os⟩ := hd
    obtain ⟨h1, h2⟩ := List.pairwise_cons.mp h
    simp only [insertLevelDesc]
    split
    · next hgt =>
      refine List.pairwise_cons.mpr ⟨?_, h⟩
      intro y hy
      rcases List.mem_cons.mp hy with he | hm
      · subst he; exact hgt
      · exact lt_trans (h1 y hm) hgt
    · split
      · exact List.pairwise_cons.mpr ⟨h1, h2⟩
      · next hgt heq =>
        refine List.pairwise_cons.mpr ⟨?_, ih h2⟩
        intro y hy
        rcases insertLevelDesc_key hy with hk | hk
        · rw [hk]; omega
        · obtain ⟨e0, he0, hke⟩ := List.mem_map.mp hk
          rw [← hke]
          exact h1 e0 he0

theorem insertLevelAsc_pairwise {o : Order} {l : List Level}
    (h : levelsAsc l) : levelsAsc (insertLevelAsc o l) := by
  unfold levelsAsc at *
  induction l with
  | nil => simp [insertLevelAsc]
  | cons hd rest ih =>
    obtain ⟨p, os⟩ := hd
    obtain ⟨h1, h2⟩ := List.pairwise_cons.mp h
    simp only [insertLevelAsc]
    split
    · next hlt =>
      refine List.pairwise_cons.mpr ⟨?_, h⟩
      intro y hy
      rcases List.mem_cons.mp hy with he | hm
      · subst he; exact hlt
      · exact lt_trans hlt (h1 y hm)
    · split
      · exact List.pairwise_cons.mpr ⟨h1, h2⟩
      · next hlt heq =>
        refine List.pairwise_cons.mpr ⟨?_, ih h2⟩
        intro y hy
        rcases insertLevelAsc_key hy with hk | hk
        · rw [hk]; omega
        · obtain ⟨e0, he0, hke⟩ := List.mem_map.mp hk
          rw [← hke]
          exact h1 e0 he0

theorem insertLevelDesc_ordersOk {o : Order} {l : List Level} {sd : Side}
    (h : levelOrdersOk sd l) (ho : o.side = sd) :
    levelOrdersOk sd (insertLevelDesc o l) := by
  induction l with
  | nil =>
    intro e he x hx
    simp only [insertLevelDesc, List.mem_singleton] at he
    subst he
    simp only [List.mem_singleton] at hx
    subst hx
    exact ⟨rfl, ho⟩
  | cons hd rest ih =>
    obtain ⟨p, os⟩ := hd
    intro e he x hx
    simp only [insertLevelDesc] at he
    split at he
    · rcases List.mem_cons.mp he with h1 | h1
      · subst h1
        simp only [List.mem_singleton] at hx
        subst hx
        exact ⟨rfl, ho⟩
      · exact h e h1 x hx
    · split at he
      · next heq =>
        rcases List.mem_cons.mp he with h1 | h1
        · subst h1
          rcases List.mem_append.mp hx with h2 | h2
          · exact h (p, os) (List.mem_cons_self _ _) x h2
          · simp only [List.mem_singleton] at h2
            subst h2
            exact ⟨heq, ho⟩
        · exact h e (List.mem_cons_of_mem _ h1) x hx
      · rcases List.mem_cons.mp he with h1 | h1
        · subst h1
          exact h (p, os) (List.mem_cons_self _ _) x hx
        · exact ih (fun e2 he2 => h e2 (List.mem_cons_of_mem _ he2)) e h1 x hx

theorem insertLevelAsc_ordersOk {o : Order} {l : List Level} {sd : Side}
    (h : levelOrdersOk sd l) (ho : o.side = sd) :
    levelOrdersOk sd (insertLevelAsc o l) := by
  induction l with
  | nil =>
    intro e he x hx
    simp only [insertLevelAsc, List.mem_singleton] at he
    subst he
    simp only [List.mem_singleton] at hx
    subst hx
    exact ⟨rfl, ho⟩
  | cons hd rest ih =>
    obtain ⟨p, os⟩ := hd
    intro e he x hx
    simp only [insertLevelAsc] at he
    split at he
    · rcases List.mem_cons.mp he with h1 | h1
      · subst h1
        simp only [List.mem_singleton] at hx
        subst hx
        exact ⟨rfl, ho⟩
      · exact h e h1 x hx
    · split at he
      · next heq =>
        rcases List.mem_cons.mp he with h1 | h1
        · subst h1
          rcases List.mem_append.mp hx with h2 | h2
          · exact h (p, os) (List.mem_cons_self _ _) x h2
          · simp only [List.mem_singleton] at h2
            subst h2
            exact ⟨heq, ho⟩
        · exact h e (List.mem_cons_of_mem _ h1) x hx
      · rcases List.mem_cons.mp he with h1 | h1
        · subst h1
          exact h (p, os) (List.mem_cons_self _ _) x hx
        · exact ih (fun e2 he2 => h e2 (List.mem_cons_of_mem _ he2)) e h1 x hx

theorem insertOrder_WF {s : OrderBook} {o : Order} (h : WF s) : WF (s.insertOrder o) := by
  unfold OrderBook.insertOrder
  cases hs : o.side
  · exact ⟨insertLevelDesc_pairwise h.bidsDesc, h.asksAsc,
      insertLevelDesc_ordersOk h.bidsOk hs, h.asksOk⟩
  · exact ⟨h.bidsDesc, insertLevelAsc_pairwise h.asksAsc,
      h.bidsOk, insertLevelAsc_ordersOk h.asksOk hs⟩

theorem crossFree_of_keys {s : OrderBook} (hwf : WF s) (hk : keysNoCross s) :
    crossFree s := by
  intro b hb a ha
  obtain ⟨eb, hebm, hebq⟩ := exists_level_of_mem_flatten hb
  obtain ⟨ea, heam, heaq⟩ := exists_level_of_mem_flatten ha
  obtain ⟨hbp, -⟩ := hwf.bidsOk eb hebm b hebq
  obtain ⟨hap, -⟩ := hwf.asksOk ea heam a heaq
  cases hbids : s.bids with
  | nil => rw [hbids] at hebm; exact absurd hebm (List.not_mem_nil _)
  | cons hdb tlb =>
    cases hasks : s.asks with
    | nil => rw [hasks] at heam; exact absurd heam (List.not_mem_nil _)
    | cons hda tla =>
      obtain ⟨bp, bqq⟩ := hdb
      obtain ⟨ap, aqq⟩ := hda
      unfold keysNoCross at hk
      rw [hbids, hasks] at hk
      have hlt : bp < ap := hk
      have hble : eb.1 ≤ bp := by
        rw [hbids] at hebm
        rcases List.mem_cons.mp hebm with he | hm
        · rw [he]
        · have := (List.pairwise_cons.mp (hbids ▸ hwf.bidsDesc)).1 eb hm
          exact le_of_lt this
      have hage : ap ≤ ea.1 := by
        rw [hasks] at heam
        rcases List.mem_cons.mp heam with he | hm
        · rw [he]
        · have := (List.pairwise_cons.mp (hasks ▸ hwf.asksAsc)).1 ea hm
          exact le_of_lt this
      rw [hbp, hap]
      omega

theorem crossFree_of_staticSub {s' s : OrderBook} (hsub : staticSub s' s)
    (h : crossFree s) : crossFree s' := by
  intro b hb a ha
  obtain ⟨b0, hb0, hbs⟩ := hsub.1 b hb
  obtain ⟨a0, ha0, has⟩ := hsub.2 a ha
  rw [hbs.2.2.2.1, has.2.2.2.1]
  exact h b0 hb0 a0 ha0

theorem step_WF {s : OrderBook} {bp ap : Int} {bq aq bq' aq' : List Order}
    {rb ra : List Level} {reg' : Registry}
    (hwf : WF s) (hbids : s.bids = (bp, bq) :: rb) (hasks : s.asks = (ap, aq) :: ra)
    (hsb : queueStaticSub bq' bq) (hsa : queueStaticSub aq' aq) :
    WF ⟨if bq' = [] then rb else (bp, bq') :: rb,
        if aq' = [] then ra else (ap, aq') :: ra, reg'⟩ := by
  have hbd := hbids ▸ hwf.bidsDesc
  have had := hasks ▸ hwf.asksAsc
  have hbo := hbids ▸ hwf.bidsOk
  have hao := hasks ▸ hwf.asksOk
  obtain ⟨hbd1, hbd2⟩ := List.pairwise_cons.mp hbd
  obtain ⟨had1, had2⟩ := List.pairwise_cons.mp had
  constructor
  · show levelsDesc (if bq' = [] then rb else (bp, bq') :: rb)
    split
    · exact hbd2
    · exact List.pairwise_cons.mpr ⟨hbd1, hbd2⟩
  · show levelsAsc (if aq' = [] then ra else (ap, aq') :: ra)
    split
    · exact had2
    · exact List.pairwise_cons.mpr ⟨had1, had2⟩
  · show levelOrdersOk .buy (if bq' = [] then rb else (bp, bq') :: rb)
    split
    · exact fun e he x hx => hbo e (List.mem_cons_of_mem _ he) x hx
    · intro e he x hx
      rcases List.mem_cons.mp he with h1 | h1
      · subst h1
        obtain ⟨o, ho, hos⟩ := hsb x hx
        obtain ⟨hp, hsd⟩ := hbo (bp, bq) (List.mem_cons_self _ _) o ho
        exact ⟨hos.2.2.2.1.trans hp, hos.2.2.1.trans hsd⟩
      · exact hbo e (List.mem_cons_of_mem _ h1) x hx
  · show levelOrdersOk .sell (if aq' = [] then ra else (ap, aq') :: ra)
    split
    · exact fun e he x hx => hao e (List.mem_cons_of_mem _ he) x hx
    · intro e he x hx
      rcases List.mem_cons.mp he with h1 | h1
      · subst h1
        obtain ⟨o, ho, hos⟩ := hsa x hx
        obtain ⟨hp, hsd⟩ := hao (ap, aq) (List.mem_cons_self _ _) o ho
        exact ⟨hos.2.2.2.1.trans hp, hos.2.2.1.trans hsd⟩
      · exact hao e (List.mem_cons_of_mem _ h1) x hx

theorem matchLoop_crossFree :
    ∀ (fuel : Nat) (s : OrderBook) (acc : List Trade) (s' : OrderBook) (tr : List Trade),
      WF s → OrderBook.MatchLoop fuel s acc = .ok s' tr → crossFree s' := by
  intro fuel
  induction fuel with
  | zero =>
    intro s acc s' tr hwf h
    simp [OrderBook.MatchLoop] at h
  | succ n ih =>
    intro s acc s' tr hwf h
    rw [show OrderBook.MatchLoop (n + 1) s acc
        = (match s.bids, s.asks with
          | [], _ => s.finishMatch acc
          | _ :: _, [] => s.finishMatch acc
          | (bp, bq) :: rb, (ap, aq) :: ra =>
            if bp < ap then s.finishMatch acc
            else
              match bq, aq with
              | [], _ => OrderBook.MatchLoop n s acc
              | _ :: _, [] => OrderBook.MatchLoop n s acc
              | _ :: _, _ :: _ =>
                match FillLevel bq aq s.orders with
                | none => .fillErr
                | some (bq', aq', reg', ts) =>
                  OrderBook.MatchLoop n
                    ⟨if bq' = [] then rb else (bp, bq') :: rb,
                     if aq' = [] then ra else (ap, aq') :: ra, reg'⟩ (acc ++ ts)) from rfl] at h
    split at h
    · rename_i heq
      obtain ⟨-, hsub, -⟩ := finishMatch_ok h
      refine crossFree_of_staticSub hsub ?_
      intro b hb a ha
      unfold residentBids at hb
      rw [heq] at hb
      simp at hb
    · rename_i heq
      obtain ⟨-, hsub, -⟩ := finishMatch_ok h
      refine crossFree_of_staticSub hsub ?_
      intro b hb a ha
      unfold residentAsks at ha
      rw [heq] at ha
      simp at ha
    · next bp bq rb ap aq ra hbids hasks =>
      split at h
      · next hlt =>
        obtain ⟨-, hsub, -⟩ := finishMatch_ok h
        refine crossFree_of_staticSub hsub (crossFree_of_keys hwf ?_)
        unfold keysNoCross
        rw [hbids, hasks]
        exact hlt
      · split at h
        · exact ih s acc s' tr hwf h
        · exact ih s acc s' tr hwf h
        · split at h
          · simp at h
          · next bq' aq' reg' ts0 hfl =>
            obtain ⟨f1, f2, -, -, -, -⟩ :=
              fillLevelF_spec _ _ _ s.orders bq' aq' reg' ts0 hfl
            exact ih _ _ _ _ (step_WF hwf hbids hasks f1 f2) h

/-- C3: after any submission that returns on a well-formed book with no
crossing resident interest, no crossing interest remains resident: one side
holds no resident order, or every resident buy order's price is strictly
below every resident sell order's price (so the best bid is strictly below
the best ask). -/
theorem claim_C3_no_cross_after_submit :
    ∀ (fuel : Nat) (s : OrderBook) (o : Order) (s' : OrderBook) (tr : List Trade),
      WF s → crossFree s → OrderBook.AddOrder fuel s o = .ok s' tr →
      residentBids s' = [] ∨ residentAsks s' = [] ∨ crossFree s' := by
  intro fuel s o s' tr hwf hcf h
  unfold OrderBook.AddOrder at h
  split at h
  · simp only [MatchResult.ok.injEq] at h
    exact Or.inr (Or.inr (h.1 ▸ hcf))
  · split at h
    · simp only [MatchResult.ok.injEq] at h
      exact Or.inr (Or.inr (h.1 ▸ hcf))
    · exact Or.inr (Or.inr (matchLoop_crossFree fuel _ [] s' tr (insertOrder_WF hwf) h))

theorem claim_C3_witness :
    residentBids bookB1 = [] ∨ residentAsks bookB1 = [] ∨ crossFree bookB1 :=
  claim_C3_no_cross_after_submit 5 emptyBook oBuy1 bookB1 []
    ⟨List.Pairwise.nil, List.Pairwise.nil,
      fun e he => absurd he (List.not_mem_nil e),
      fun e he => absurd he (List.not_mem_nil e)⟩
    (fun b hb => by simp [residentBids, emptyBook] at hb)
    (by decide)

theorem foldl_mod_eq_sum_mod (l : List Order) :
    ∀ acc : Nat, l.foldl (fun a o => (a + o.remainingQuantity) % 2 ^ 32) (acc % 2 ^ 32)
      = (acc + (l.map (fun o => o.remainingQuantity)).sum) % 2 ^ 32 := by
  induction l with
  | nil => intro acc; simp
  | cons o rest ih =>
    intro acc
    simp only [List.foldl_cons, List.map_cons, List.sum_cons]
    rw [Nat.mod_add_mod]
    have := ih (acc + o.remainingQuantity)
    rw [this]
    congr 1
    omega

theorem levelQuantity_eq_sum_mod (q : List Order) :
    levelQuantity q = ((q.map (fun o => o.remainingQuantity)).sum) % 2 ^ 32 := by
  unfold levelQuantity
  have := foldl_mod_eq_sum_mod q 0
  simpa using this

/-- C9 (amended): the level snapshot has exactly one entry per price level
present in each index, bids in strictly descending price order and asks in
strictly ascending price order, and each entry's quantity is the sum of the
remaining quantities at that level reduced modulo 2^32 (the uint32
accumulation of lines 270-278).  The query itself is a const member: in
this model a pure function of the book. -/
theorem claim_C9_amended :
    ∀ s : OrderBook, WF s →
      s.GetLevelInfos.1 = s.bids.map (fun e =>
        ⟨e.1, ((e.2.map (fun o => o.remainingQuantity)).sum) % 2 ^ 32⟩) ∧
      s.GetLevelInfos.2 = s.asks.map (fun e =>
        ⟨e.1, ((e.2.map (fun o => o.remainingQuantity)).sum) % 2 ^ 32⟩) ∧
      (s.GetLevelInfos.1.map (fun li => li.price)).Pairwise (fun x y => y < x) ∧
      (s.GetLevelInfos.2.map (fun li => li.price)).Pairwise (fun x y => x < y) := by
  intro s hwf
  refine ⟨?_, ?_, ?_, ?_⟩
  · unfold OrderBook.GetLevelInfos
    exact List.map_congr_left (fun e _ => by rw [levelQuantity_eq_sum_mod])
  · unfold OrderBook.GetLevelInfos
    exact List.map_congr_left (fun e _ => by rw [levelQuantity_eq_sum_mod])
  · unfold OrderBook.GetLevelInfos
    simp only [List.map_map]
    refine List.pairwise_map.mpr ?_
    exact hwf.bidsDesc.imp (fun h => h)
  · unfold OrderBook.GetLevelInfos
    simp only [List.map_map]
    refine List.pairwise_map.mpr ?_
    exact hwf.asksAsc.imp (fun h => h)

theorem claim_C9_amended_witness :
    bookW2.GetLevelInfos.1 = bookW2.bids.map (fun e =>
        ⟨e.1, ((e.2.map (fun o => o.remainingQuantity)).sum) % 2 ^ 32⟩) ∧
      bookW2.GetLevelInfos.2 = bookW2.asks.map (fun e =>
        ⟨e.1, ((e.2.map (fun o => o.remainingQuantity)).sum) % 2 ^ 32⟩) ∧
      (bookW2.GetLevelInfos.1.map (fun li => li.price)).Pairwise (fun x y => y < x) ∧
      (bookW2.GetLevelInfos.2.map (fun li => li.price)).Pairwise (fun x y => x < y) :=
  claim_C9_amended bookW2
    ⟨by unfold levelsDesc bookW2; decide, by unfold levelsAsc bookW2; decide,
     by unfold levelOrdersOk bookW2; decide, by unfold levelOrdersOk bookW2; decide⟩

theorem findLevel_cons (x p : Int) (os : List Order) (rest : List Level) :
    findLevel x ((p, os) :: rest) = if p = x then some os else findLevel x rest := by
  unfold findLevel
  by_cases h : p = x
  · rw [List.find?_cons_of_pos _ (by simpa using h), if_pos h]
    rfl
  · rw [List.find?_cons_of_neg _ (by simpa using h), if_neg h]

theorem findLevel_eq_none {x : Int} {l : List Level} (h : ∀ e ∈ l, e.1 ≠ x) :
    findLevel x l = none := by
  unfold findLevel
  rw [List.find?_eq_none.mpr]
  · rfl
  · intro e he
    simpa using h e he

theorem find_insertLevelDesc {o : Order} {l : List Level} (h : levelsDesc l) :
    findLevel o.price (insertLevelDesc o l)
      = some ((findLevel o.price l).getD [] ++ [o]) := by
  induction l with
  | nil =>
    simp only [insertLevelDesc]
    rw [findLevel_cons, if_pos rfl]
    rfl
  | cons hd rest ih =>
    obtain ⟨p, os⟩ := hd
    obtain ⟨h1, h2⟩ := List.pairwise_cons.mp h
    simp only [insertLevelDesc]
    split
    · next hgt =>
      rw [findLevel_cons, if_pos rfl, findLevel_cons, if_neg (by omega)]
      rw [findLevel_eq_none (fun e he => by have := h1 e he; omega)]
      rfl
    · split
      · next heq =>
        rw [findLevel_cons, if_pos heq.symm, findLevel_cons, if_pos heq.symm]
        rfl
      · next hgt heq =>
        have hne : ¬ (p = o.price) := fun hh => heq hh.symm
        rw [findLevel_cons, if_neg hne, findLevel_cons, if_neg hne]
        exact ih h2

theorem find_insertLevelAsc {o : Order} {l : List Level} (h : levelsAsc l) :
    findLevel o.price (insertLevelAsc o l)
      = some ((findLevel o.price l).getD [] ++ [o]) := by
  induction l with
  | nil =>
    simp only [insertLevelAsc]
    rw [findLevel_cons, if_pos rfl]
    rfl
  | cons hd rest ih =>
    obtain ⟨p, os⟩ := hd
    obtain ⟨h1, h2⟩ := List.pairwise_cons.mp h
    simp only [insertLevelAsc]
    split
    · next hlt =>
      rw [findLevel_cons, if_pos rfl, findLevel_cons, if_neg (by omega)]
      rw [findLevel_eq_none (fun e he => by have := h1 e he; omega)]
      rfl
    · split
      · next heq =>
        rw [findLevel_cons, if_pos heq.symm, findLevel_cons, if_pos heq.symm]
        rfl
      · next hlt heq =>
        have hne : ¬ (p = o.price) := fun hh => heq hh.symm
        rw [findLevel_cons, if_neg hne, findLevel_cons, if_neg hne]
        exact ih h2

theorem matchLoop_first_trade {fuel : Nat} {bp ap : Int} {b a : Order} {bs as : List Order}
    {rb ra : List Level} {reg : Registry} {s' : OrderBook} {tr : List Trade}
    (hnlt : ¬ bp < ap)
    (h : OrderBook.MatchLoop (fuel + 1) ⟨(bp, b :: bs) :: rb, (ap, a :: as) :: ra, reg⟩ []
      = .ok s' tr) :
    tr.head? = some (mkTrade b a (min b.remainingQuantity a.remainingQuantity)) := by
  rw [show OrderBook.MatchLoop (fuel + 1) ⟨(bp, b :: bs) :: rb, (ap, a :: as) :: ra, reg⟩ []
      = (if bp < ap
          then OrderBook.finishMatch ⟨(bp, b :: bs) :: rb, (ap, a :: as) :: ra, reg⟩ []
          else
            match FillLevel (b :: bs) (a :: as) reg with
            | none => .fillErr
            | some (bq', aq', reg', ts) =>
              OrderBook.MatchLoop fuel
                ⟨if bq' = [] then rb else (bp, bq') :: rb,
                 if aq' = [] then ra else (ap, aq') :: ra, reg'⟩ ([] ++ ts)) from rfl] at h
  rw [if_neg hnlt] at h
  cases hfl : FillLevel (b :: bs) (a :: as) reg with
  | none => exact absurd hfl (FillLevel_ne_none _ _ _)
  | some r =>
    obtain ⟨bq', aq', reg', ts0⟩ := r
    rw [hfl] at h
    obtain ⟨-, -, ts1, hts1, -⟩ := matchLoop_ok fuel _ _ _ _ h
    have hfl2 : fillLevelF (bs.length + 1 + as.length + 1) (b :: bs) (a :: as) reg
        = some (bq', aq', reg', ts0) := hfl
    obtain ⟨rest, hrest⟩ := fillLevelF_head hfl2
    rw [hts1, hrest]
    simp

/-- C8: price-time priority.  (a) A submitted order is appended at the tail
of its own price level's queue on its own side.  (b) Matching works on the
front (best) level of each side and takes queue heads: when the two top
levels cross, the first emitted trade is between the two front orders, for
the min of their remaining quantities.  (c) The inner loop consumes each
queue strictly from the front: the surviving id sequence of each queue is a
tail of the original id sequence, so among same-price resident orders the
earlier-submitted one is always consumed first. -/
theorem claim_C8_price_time_priority :
    (∀ (s : OrderBook) (o : Order), WF s →
      queueAt (s.insertOrder o) o.side o.price = queueAt s o.side o.price ++ [o]) ∧
    (∀ (fuel : Nat) (bp ap : Int) (b a : Order) (bs as : List Order) (rb ra : List Level)
        (reg : Registry) (s' : OrderBook) (tr : List Trade), ¬ bp < ap →
      OrderBook.MatchLoop (fuel + 1) ⟨(bp, b :: bs) :: rb, (ap, a :: as) :: ra, reg⟩ []
        = .ok s' tr →
      tr.head? = some (mkTrade b a (min b.remainingQuantity a.remainingQuantity))) ∧
    (∀ (bq aq : List Order) (reg : Registry) (bq' aq' : List Order) (reg' : Registry)
        (ts : List Trade), FillLevel bq aq reg = some (bq', aq', reg', ts) →
      idsDropOf bq' bq ∧ idsDropOf aq' aq) := by
  refine ⟨?_, ?_, ?_⟩
  · intro s o hwf
    unfold queueAt OrderBook.insertOrder
    cases hs : o.side
    · show (findLevel o.price (insertLevelDesc o s.bids)).getD []
        = (findLevel o.price s.bids).getD [] ++ [o]
      rw [find_insertLevelDesc hwf.bidsDesc]
      rfl
    · show (findLevel o.price (insertLevelAsc o s.asks)).getD []
        = (findLevel o.price s.asks).getD [] ++ [o]
      rw [find_insertLevelAsc hwf.asksAsc]
      rfl
  · intro fuel bp ap b a bs as rb ra reg s' tr hnlt h
    exact matchLoop_first_trade hnlt h
  · intro bq aq reg bq' aq' reg' ts h
    obtain ⟨-, -, f3, f4, -, -⟩ := fillLevelF_spec _ _ _ _ _ _ _ _ h
    exact ⟨f3, f4⟩

theorem claim_C8_witness :
    queueAt (bookS1.insertOrder (mkOrder .goodTillCancel 3 .sell 100 7)) .sell 100
        = queueAt bookS1 .sell 100 ++ [mkOrder .goodTillCancel 3 .sell 100 7] ∧
    [(⟨⟨2, 105, 5⟩, ⟨1, 100, 5⟩⟩ : Trade)].head?
        = some (mkTrade oBuy2 oSell1 (min oBuy2.remainingQuantity oSell1.remainingQuantity)) ∧
    (idsDropOf [] [oBuy2] ∧ idsDropOf [] [oSell1]) :=
  ⟨claim_C8_price_time_priority.1 bookS1 (mkOrder .goodTillCancel 3 .sell 100 7)
     ⟨by unfold levelsDesc bookS1; decide, by unfold levelsAsc bookS1; decide,
      by unfold levelOrdersOk bookS1; decide, by unfold levelOrdersOk bookS1; decide⟩,
   claim_C8_price_time_priority.2.1 4 105 100 oBuy2 oSell1 [] [] [] []
     [(1, ⟨.sell, 100, .goodTillCancel⟩), (2, ⟨.buy, 105, .goodTillCancel⟩)]
     emptyBook [⟨⟨2, 105, 5⟩, ⟨1, 100, 5⟩⟩] (by decide) (by decide),
   claim_C8_price_time_priority.2.2 [oBuy2] [oSell1]
     [(1, ⟨.sell, 100, .goodTillCancel⟩), (2, ⟨.buy, 105, .goodTillCancel⟩)] [] [] []
     [mkTrade oBuy2 oSell1 5] (by rfl)⟩

theorem insertLevelDesc_nonempty {o : Order} {l : List Level}
    (h : ∀ e ∈ l, e.2 ≠ []) : ∀ e ∈ insertLevelDesc o l, e.2 ≠ [] := by
  induction l with
  | nil =>
    intro e he
    simp only [insertLevelDesc, List.mem_singleton] at he
    subst he
    simp
  | cons hd rest ih =>
    obtain ⟨p, os⟩ := hd
    intro e he
    simp only [insertLevelDesc] at he
    split at he
    · rcases List.mem_cons.mp he with h1 | h1
      · subst h1; simp
      · exact h e h1
    · split at he
      · rcases List.mem_cons.mp he with h1 | h1
        · subst h1; simp
        · exact h e (List.mem_cons_of_mem _ h1)
      · rcases List.mem_cons.mp he with h1 | h1
        · subst h1
          exact h (p, os) (List.mem_cons_self _ _)
        · exact ih (fun e2 he2 => h e2 (List.mem_cons_of_mem _ he2)) e h1

theorem insertLevelAsc_nonempty {o : Order} {l : List Level}
    (h : ∀ e ∈ l, e.2 ≠ []) : ∀ e ∈ insertLevelAsc o l, e.2 ≠ [] := by
  induction l with
  | nil =>
    intro e he
    simp only [insertLevelAsc, List.mem_singleton] at he
    subst he
    simp
  | cons hd rest ih =>
    obtain ⟨p, os⟩ := hd
    intro e he
    simp only [insertLevelAsc] at he
    split at he
    · rcases List.mem_cons.mp he with h1 | h1
      · subst h1; simp
      · exact h e h1
    · split at he
      · rcases List.mem_cons.mp he with h1 | h1
        · subst h1; simp
        · exact h e (List.mem_cons_of_mem _ h1)
      · rcases List.mem_cons.mp he with h1 | h1
        · subst h1
          exact h (p, os) (List.mem_cons_self _ _)
        · exact ih (fun e2 he2 => h e2 (List.mem_cons_of_mem _ he2)) e h1

theorem mem_insertLevelDesc_self (o : Order) (l : List Level) :
    o ∈ ((insertLevelDesc o l).map (fun e => e.2)).flatten := by
  induction l with
  | nil => simp [insertLevelDesc]
  | cons hd rest ih =>
    obtain ⟨p, os⟩ := hd
    simp only [insertLevelDesc]
    split
    · simp
    · split
      · simp
      · simp only [List.map_cons, List.flatten_cons, List.mem_append]
        exact Or.inr ih

theorem mem_insertLevelAsc_self (o : Order) (l : List Level) :
    o ∈ ((insertLevelAsc o l).map (fun e => e.2)).flatten := by
  induction l with
  | nil => simp [insertLevelAsc]
  | cons hd rest ih =>
    obtain ⟨p, os⟩ := hd
    simp only [insertLevelAsc]
    split
    · simp
    · split
      · simp
      · simp only [List.map_cons, List.flatten_cons, List.mem_append]
        exact Or.inr ih

theorem insert_levelsNonempty {s : OrderBook} {o : Order}
    (h : levelsNonempty s) : levelsNonempty (s.insertOrder o) := by
  unfold OrderBook.insertOrder
  cases o.side
  · exact ⟨insertLevelDesc_nonempty h.1, h.2⟩
  · exact ⟨h.1, insertLevelAsc_nonempty h.2⟩

theorem insert_noResidentFOK {s : OrderBook} {o : Order}
    (h : noResidentFOK s) (ho : o.orderType ≠ .fillOrKill) :
    noResidentFOK (s.insertOrder o) := by
  unfold OrderBook.insertOrder
  cases o.side
  · refine ⟨fun x hx => ?_, h.2⟩
    rcases mem_levels_insertLevelDesc hx with hm | he
    · exact h.1 x hm
    · subst he; exact ho
  · refine ⟨h.1, fun x hx => ?_⟩
    rcases mem_levels_insertLevelAsc hx with hm | he
    · exact h.2 x hm
    · subst he; exact ho

theorem insert_keysNoCross {s : OrderBook} {o : Order}
    (hk : keysNoCross s) (hcm : s.CanMatch o.side o.price = false) :
    keysNoCross (s.insertOrder o) := by
  unfold OrderBook.insertOrder
  cases hs : o.side
  · unfold OrderBook.CanMatch at hcm
    rw [hs] at hcm
    cases hasks : s.asks with
    | nil =>
      unfold keysNoCross
      cases insertLevelDesc o s.bids <;> exact True.intro
    | cons hda tla =>
      obtain ⟨ap, aqq⟩ := hda
      rw [hasks] at hcm
      have hpa : o.price < ap := by
        have h2 := of_decide_eq_false hcm
        omega
      cases hbids : s.bids with
      | nil =>
        unfold keysNoCross
        simp only [insertLevelDesc]
        exact hpa
      | cons hdb tlb =>
        obtain ⟨bp, bqq⟩ := hdb
        have hba : bp < ap := by
          unfold keysNoCross at hk
          rw [hbids, hasks] at hk
          exact hk
        unfold keysNoCross
        simp only [insertLevelDesc]
        by_cases h1 : o.price > bp
        · rw [if_pos h1]
          exact hpa
        · rw [if_neg h1]
          by_cases h2 : o.price = bp
          · rw [if_pos h2]
            exact hba
          · rw [if_neg h2]
            exact hba
  · unfold OrderBook.CanMatch at hcm
    rw [hs] at hcm
    cases hbids : s.bids with
    | nil =>
      unfold keysNoCross
      exact True.intro
    | cons hdb tlb =>
      obtain ⟨bp, bqq⟩ := hdb
      rw [hbids] at hcm
      have hpb : bp < o.price := by
        have h2 := of_decide_eq_false hcm
        omega
      cases hasks : s.asks with
      | nil =>
        unfold keysNoCross
        simp only [insertLevelAsc]
        exact hpb
      | cons hda tla =>
        obtain ⟨ap, aqq⟩ := hda
        have hba : bp < ap := by
          unfold keysNoCross at hk
          rw [hbids, hasks] at hk
          exact hk
        unfold keysNoCross
        simp only [insertLevelAsc]
        by_cases h1 : o.price < ap
        · rw [if_pos h1]
          exact hpb
        · rw [if_neg h1]
          by_cases h2 : o.price = ap
          · rw [if_pos h2]
            exact hba
          · rw [if_neg h2]
            exact hba

theorem finishAsks_clean {s : OrderBook} {acc : List Trade}
    (hne : ∀ e ∈ s.asks, e.2 ≠ [])
    (hnf : ∀ x ∈ residentAsks s, x.orderType ≠ OrderType.fillOrKill) :
    s.finishAsks acc = .ok s acc := by
  cases hasks : s.asks with
  | nil =>
    unfold OrderBook.finishAsks
    rw [hasks]
  | cons hd tl =>
    obtain ⟨p, q⟩ := hd
    cases q with
    | nil =>
      exact absurd rfl (hne (p, []) (by rw [hasks]; exact List.mem_cons_self _ _))
    | cons o q0 =>
      have hnf2 : o.orderType ≠ .fillOrKill := hnf o (by
        unfold residentAsks
        rw [hasks]
        simp only [List.map_cons, List.flatten_cons, List.mem_append]
        exact Or.inl (List.mem_cons_self _ _))
      unfold OrderBook.finishAsks
      rw [hasks]
      show (if o.orderType = .fillOrKill then
              match s.CancelOrder o.orderId with
              | some s1 => MatchResult.ok s1 acc
              | none => MatchResult.crash
            else MatchResult.ok s acc) = MatchResult.ok s acc
      rw [if_neg hnf2]

theorem finishMatch_clean {s : OrderBook} {acc : List Trade}
    (hne : levelsNonempty s) (hnf : noResidentFOK s) :
    s.finishMatch acc = .ok s acc := by
  cases hbids : s.bids with
  | nil =>
    unfold OrderBook.finishMatch
    rw [hbids]
    exact finishAsks_clean hne.2 hnf.2
  | cons hd tl =>
    obtain ⟨p, q⟩ := hd
    cases q with
    | nil =>
      exact absurd rfl (hne.1 (p, []) (by rw [hbids]; exact List.mem_cons_self _ _))
    | cons o q0 =>
      have hnf2 : o.orderType ≠ .fillOrKill := hnf.1 o (by
        unfold residentBids
        rw [hbids]
        simp only [List.map_cons, List.flatten_cons, List.mem_append]
        exact Or.inl (List.mem_cons_self _ _))
      unfold OrderBook.finishMatch
      rw [hbids]
      show (if o.orderType = .fillOrKill then
              match s.CancelOrder o.orderId with
              | some s1 => s1.finishAsks acc
              | none => MatchResult.crash
            else s.finishAsks acc) = MatchResult.ok s acc
      rw [if_neg hnf2]
      exact finishAsks_clean hne.2 hnf.2

theorem matchLoop_noCross_finish {fuel : Nat} {s : OrderBook} {acc : List Trade}
    (hk : keysNoCross s) :
    OrderBook.MatchLoop (fuel + 1) s acc = s.finishMatch acc := by
  rw [show OrderBook.MatchLoop (fuel + 1) s acc
      = (match s.bids, s.asks with
        | [], _ => s.finishMatch acc
        | _ :: _, [] => s.finishMatch acc
        | (bp, bq) :: rb, (ap, aq) :: ra =>
          if bp < ap then s.finishMatch acc
          else
            match bq, aq with
            | [], _ => OrderBook.MatchLoop fuel s acc
            | _ :: _, [] => OrderBook.MatchLoop fuel s acc
            | _ :: _, _ :: _ =>
              match FillLevel bq aq s.orders with
              | none => .fillErr
              | some (bq', aq', reg', ts) =>
                OrderBook.MatchLoop fuel
                  ⟨if bq' = [] then rb else (bp, bq') :: rb,
                   if aq' = [] then ra else (ap, aq') :: ra, reg'⟩ (acc ++ ts)) from rfl]
  split
  · rfl
  · rfl
  · next bp bq rb ap aq ra hbids hasks =>
    have hlt : bp < ap := by
      unfold keysNoCross at hk
      rw [hbids, hasks] at hk
      exact hk
    rw [if_pos hlt]

theorem insertOrder_size (s : OrderBook) (o : Order) :
    (s.insertOrder o).Size = s.Size + 1 := by
  unfold OrderBook.Size OrderBook.insertOrder regInsert
  cases o.side <;> simp

/-- C10: zero-quantity orders pass through the public interface.  (a) A
GoodTillCancel order of quantity 0 that cannot match is accepted: on a book
with nonempty levels, no resident FillOrKill order and non-crossing top
keys, the submission returns no trades, the order rests in its own side's
queue, and Size grows by one.  (b) When the top levels cross and the front
bid order's remaining quantity is already 0, matching emits a trade of
matched quantity 0 between the two front orders and deregisters the
zero-quantity order. -/
theorem claim_C10_zero_quantity :
    (∀ (fuel : Nat) (s : OrderBook) (id : Nat) (sd : Side) (p : Int),
      levelsNonempty s → noResidentFOK s → keysNoCross s →
      regContains s.orders id = false →
      s.CanMatch sd p = false →
      OrderBook.AddOrder (fuel + 1) s (mkOrder .goodTillCancel id sd p 0)
          = .ok (s.insertOrder (mkOrder .goodTillCancel id sd p 0)) [] ∧
        (s.insertOrder (mkOrder .goodTillCancel id sd p 0)).Size = s.Size + 1 ∧
        (sd = .buy → mkOrder .goodTillCancel id sd p 0
          ∈ residentBids (s.insertOrder (mkOrder .goodTillCancel id sd p 0))) ∧
        (sd = .sell → mkOrder .goodTillCancel id sd p 0
          ∈ residentAsks (s.insertOrder (mkOrder .goodTillCancel id sd p 0)))) ∧
    (∀ (fuel : Nat) (bp ap : Int) (b a : Order) (bs as : List Order) (rb ra : List Level)
        (reg : Registry) (s' : OrderBook) (tr : List Trade),
      ap ≤ bp → b.remainingQuantity = 0 →
      OrderBook.MatchLoop (fuel + 1) ⟨(bp, b :: bs) :: rb, (ap, a :: as) :: ra, reg⟩ []
        = .ok s' tr →
      tr.head? = some (mkTrade b a 0) ∧ regContains s'.orders b.orderId = false) := by
  constructor
  · intro fuel s id sd p hne hnf hk hreg hcm
    have hAdd : OrderBook.AddOrder (fuel + 1) s (mkOrder .goodTillCancel id sd p 0)
        = OrderBook.MatchLoop (fuel + 1)
            (s.insertOrder (mkOrder .goodTillCancel id sd p 0)) [] := by
      unfold OrderBook.AddOrder
      rw [if_neg (by simp [mkOrder, hreg]), if_neg (by simp [mkOrder])]
    have hk2 : keysNoCross (s.insertOrder (mkOrder .goodTillCancel id sd p 0)) :=
      insert_keysNoCross hk hcm
    have hne2 := insert_levelsNonempty (o := mkOrder .goodTillCancel id sd p 0) hne
    have hnf2 := insert_noResidentFOK (o := mkOrder .goodTillCancel id sd p 0) hnf
      (by simp [mkOrder])
    rw [hAdd, matchLoop_noCross_finish hk2, finishMatch_clean hne2 hnf2]
    refine ⟨rfl, insertOrder_size _ _, fun hsd => ?_, fun hsd => ?_⟩
    · subst hsd
      exact mem_insertLevelDesc_self _ _
    · subst hsd
      exact mem_insertLevelAsc_self _ _
  · intro fuel bp ap b a bs as rb ra reg s' tr hle hz h
    have hnlt : ¬ bp < ap := not_lt.mpr hle
    rw [show OrderBook.MatchLoop (fuel + 1)
          ⟨(bp, b :: bs) :: rb, (ap, a :: as) :: ra, reg⟩ []
        = (if bp < ap
            then OrderBook.finishMatch ⟨(bp, b :: bs) :: rb, (ap, a :: as) :: ra, reg⟩ []
            else
              match FillLevel (b :: bs) (a :: as) reg with
              | none => .fillErr
              | some (bq', aq', reg', ts) =>
                OrderBook.MatchLoop fuel
                  ⟨if bq' = [] then rb else (bp, bq') :: rb,
                   if aq' = [] then ra else (ap, aq') :: ra, reg'⟩ ([] ++ ts)) from rfl] at h
    rw [if_neg hnlt] at h
    cases hfl : FillLevel (b :: bs) (a :: as) reg with
    | none => exact absurd hfl (FillLevel_ne_none _ _ _)
    | some r =>
      obtain ⟨bq', aq', reg', ts0⟩ := r
      rw [hfl] at h
      have hfl2 : fillLevelF (bs.length + 1 + as.length + 1) (b :: bs) (a :: as) reg
          = some (bq', aq', reg', ts0) := hfl
      obtain ⟨⟨rest, hrest⟩, hregb⟩ := fillLevelF_zero_front hz hfl2
      obtain ⟨-, hreg2, ts1, hts1, -⟩ := matchLoop_ok fuel _ _ _ _ h
      constructor
      · rw [hts1, hrest]
        simp
      · exact regAntitone_not_contains hreg2 hregb

theorem claim_C10_witness :
    (OrderBook.AddOrder 5 bookS1 (mkOrder .goodTillCancel 2 .buy 90 0)
        = .ok (bookS1.insertOrder (mkOrder .goodTillCancel 2 .buy 90 0)) [] ∧
      (bookS1.insertOrder (mkOrder .goodTillCancel 2 .buy 90 0)).Size = bookS1.Size + 1 ∧
      (Side.buy = Side.buy → mkOrder .goodTillCancel 2 .buy 90 0
        ∈ residentBids (bookS1.insertOrder (mkOrder .goodTillCancel 2 .buy 90 0))) ∧
      (Side.buy = Side.sell → mkOrder .goodTillCancel 2 .buy 90 0
        ∈ residentAsks (bookS1.insertOrder (mkOrder .goodTillCancel 2 .buy 90 0)))) ∧
    ([mkTrade (mkOrder .goodTillCancel 7 .buy 100 0) oSell1 0].head?
        = some (mkTrade (mkOrder .goodTillCancel 7 .buy 100 0) oSell1 0) ∧
      regContains [(1, ⟨.sell, 100, .goodTillCancel⟩)]
        (mkOrder .goodTillCancel 7 .buy 100 0).orderId = false) :=
  ⟨claim_C10_zero_quantity.1 4 bookS1 2 .buy 90
     (by unfold levelsNonempty bookS1; decide)
     (by unfold noResidentFOK bookS1; decide)
     (by unfold keysNoCross bookS1; trivial)
     (by decide) (by decide),
   claim_C10_zero_quantity.2 2 100 100 (mkOrder .goodTillCancel 7 .buy 100 0) oSell1
     [] [] [] [] [(7, ⟨.buy, 100, .goodTillCancel⟩), (1, ⟨.sell, 100, .goodTillCancel⟩)]
     ⟨[], [(100, [oSell1])], [(1, ⟨.sell, 100, .goodTillCancel⟩)]⟩
     [mkTrade (mkOrder .goodTillCancel 7 .buy 100 0) oSell1 0]
     (by decide) (by decide) (by decide)⟩

end Ordrebook
